import Mathlib

/-!
# Verification of `vec-utils` `try_zip_with` (src/vec/general_zip.rs)

A shallow embedding of the buffer-reuse zip engine of the `vec-utils`
crate.  The heterogeneous `Tuple` recursion of the source (`(A,)` base
case, `(A, T)` cons case) is modelled as recursion over a nonempty
`List`; since in Rust the element layouts are type-level data, every
modelled vector carries its element `Layout` as a value.  Machine
pointers are modelled as `Nat` addresses plus element offsets.
Operations that are undefined behaviour in the source (out-of-bounds
reads, `usize` underflow in `Drop`) are modelled by `Option`, with
`none` marking undefined behaviour; the top-level theorems show the
engine never reaches them.
-/

set_option autoImplicit false

namespace VecUtils

variable {α β γ : Type} {ε : Type}

/-- Memory layout of an element type: its size and alignment, the
`std::alloc::Layout` pair compared by `check_layout` in
`general_zip.rs`. -/
structure Layout where
  size : Nat
  align : Nat
deriving DecidableEq

/-- A Rust `Vec<A>` as the engine receives it: backing allocation
address, capacity, element layout (`Layout::new::<A>` is type-level in
Rust and carried as data here) and contents. -/
structure Vec (α : Type) where
  addr : Nat
  cap : Nat
  layout : Layout
  elems : List α
deriving DecidableEq

/-- Modelled from the spec: the `Input<A>` data segment of
`src/vec/mod.rs`, which is not among the provided sources.  Spec §3
(`BufferHandle`): a decomposed, ownership-suppressed view of an array
with start address, cursor, length, capacity and ownership flag.  The
cursor is kept as the element offset `off` from `start`, and the buffer
contents as the immutable list `elems`: the lock-step walk reads a
donor slot strictly before that slot is overwritten, so the value read
is always the original one. -/
structure Input (α : Type) where
  start : Nat
  off : Nat
  len : Nat
  cap : Nat
  drop_alloc : Bool
  layout : Layout
  elems : List α
deriving DecidableEq

/-- `<Vec<A> as TupleElem>::into_data`, i.e. `Input::from(vec)`
(modelled from the spec: decomposition captures the raw parts,
suppresses the array's destructor and puts the cursor at the start). -/
def Input.fromVec (v : Vec α) : Input α :=
  ⟨v.addr, 0, v.elems.length, v.cap, true, v.layout, v.elems⟩

/-- Modelled from the spec: the `Output<V>` handle of
`src/vec/mod.rs`, which is not among the provided sources: start
address, write cursor and capacity of the chosen output buffer.  `buf`
records the values written at offsets `[0, off)`. -/
structure Output (β : Type) where
  start : Nat
  off : Nat
  cap : Nat
  buf : List β
deriving DecidableEq

/-- `Tuple::LEN`: `0` for the base case `(A,)` and `T::LEN + 1` for
`(A, T)`; equivalently `length - 1` for a nonempty list. -/
def tupleLEN : List γ → Nat
  | [] => 0
  | [_] => 0
  | _ :: rest => tupleLEN rest + 1

/-- `Tuple::check_layout::<V>`: the base case `(A,)` delegates to the
element check `Layout::new::<A>() == Layout::new::<V>()`; the cons case
`(A, T)` is the disjunction of head and tail. -/
def check_layout (vl : Layout) : List (Vec α) → Bool
  | [] => false
  | [v] => decide (v.layout = vl)
  | v :: rest => decide (v.layout = vl) || check_layout vl rest

/-- `Tuple::remaining_len`: the base case is the element's `len`
(`Vec::len`), the cons case is `self.0.len().min(self.1.remaining_len())`. -/
def remaining_len : List (Vec α) → Nat
  | [] => 0
  | [v] => v.elems.length
  | v :: rest => min v.elems.length (remaining_len rest)

/-- `Tuple::max_cap::<V>`: donor selection.  Returns the selected
capacity together with the final value of the `&mut u64` depth
out-parameter (initial value passed explicitly).  Base case: on a
layout match set `depth := LEN = 0` and return the capacity, otherwise
leave `depth` alone and return `None`.  Cons case: recurse on the tail
first; a matching head takes over (setting `depth := Self::LEN`) unless
the tail found a strictly larger matching capacity. -/
def max_cap (vl : Layout) : List (Input α) → Nat → Option Nat × Nat
  | [], depth => (none, depth)
  | [a], depth => if a.layout = vl then (some a.cap, 0) else (none, depth)
  | a :: rest, depth =>
    let pr := max_cap vl rest depth
    if a.layout = vl then
      match pr.1 with
      | some cap_rest =>
        if a.cap < cap_rest then (some cap_rest, pr.2)
        else (some a.cap, tupleLEN (a :: rest))
      | none => (some a.cap, tupleLEN (a :: rest))
    else pr

/-- `<Vec<A> as TupleElem>::take_output::<V>`: clear `drop_alloc` on
the donor (its allocation now belongs to the output handle) and build
`Output::new(data.start as *mut V, data.cap)` with the write cursor at
the start and nothing written yet. -/
def elem_take_output (d : Input α) : Output β × Input α :=
  (⟨d.start, 0, d.cap, []⟩, { d with drop_alloc := false })

/-- `Tuple::take_output_impl::<V>`: walk down the list and claim the
element at which `Self::LEN` equals the requested depth; the base case
`(A,)` claims its element unconditionally. -/
def take_output_impl (depth : Nat) : List (Input α) → Option (Output β × List (Input α))
  | [] => none
  | [a] =>
    let p : Output β × Input α := elem_take_output a
    some (p.1, [p.2])
  | a :: rest =>
    if tupleLEN (a :: rest) = depth then
      let p : Output β × Input α := elem_take_output a
      some (p.1, p.2 :: rest)
    else
      match take_output_impl depth rest with
      | none => none
      | some (o, rest2) => some (o, a :: rest2)

/-- `Tuple::take_output::<V>`: the base case `(A,)` claims its single
element directly; the cons case first runs `max_cap` with `depth = 0`
and then dispatches through `take_output_impl` at the depth it wrote. -/
def tuple_take_output (vl : Layout) : List (Input α) → Option (Output β × List (Input α))
  | [] => none
  | [a] =>
    let p : Output β × Input α := elem_take_output a
    some (p.1, [p.2])
  | a :: rest => take_output_impl (max_cap vl (a :: rest) 0).2 (a :: rest)

/-- `<Vec<A> as TupleElem>::next_unchecked`: read the element under the
cursor and advance the cursor by one.  `none` marks the out-of-bounds
read that is undefined behaviour in the source. -/
def elem_next (d : Input α) : Option α × Input α :=
  (d.elems[d.off]?, { d with off := d.off + 1 })

/-- `Tuple::next_unchecked`: read one element from every input; head
and tail cursors are both always advanced, as in the source. -/
def tuple_next : List (Input α) → Option (List α) × List (Input α)
  | [] => (some [], [])
  | [a] =>
    let p := elem_next a
    (p.1.map (fun x => [x]), [p.2])
  | a :: rest =>
    let p := elem_next a
    let q := tuple_next rest
    (match p.1, q.1 with
     | some x, some xs => some (x :: xs)
     | _, _ => none,
     p.2 :: q.2)

/-- `<Vec<A> as TupleElem>::drop_rest`: drop the `data.len - len`
elements starting at the cursor and — deferred via `defer!`, so it runs
even if an element destructor panics — free the allocation iff
`drop_alloc` is still set.  Returns the dropped elements and whether
the allocation was freed. -/
def elem_drop_rest (d : Input α) (len : Nat) : List α × Bool :=
  ((d.elems.drop d.off).take (d.len - len), d.drop_alloc)

/-- `Tuple::drop_rest`: dispose of the head, with the tail's disposal
registered under `defer!` so that it runs on every path; the resulting
per-input disposals.  (The behaviour under a diverging head disposal is
modelled separately by `drop_rest_diverge`.) -/
def tuple_drop_rest (inputs : List (Input α)) (len : Nat) : List (List α × Bool) :=
  inputs.map (fun d => elem_drop_rest d len)

/-- Decidable equality for `Except`, needed so that concrete engine
runs can be checked by `decide` in the witnesses below. -/
instance instDecEqExcept {δ : Type} [DecidableEq ε] [DecidableEq δ] :
    DecidableEq (Except ε δ) := fun a b =>
  match a, b with
  | .ok x, .ok y =>
    if h : x = y then isTrue (by rw [h]) else isFalse (by intro hc; cases hc; exact h rfl)
  | .error x, .error y =>
    if h : x = y then isTrue (by rw [h]) else isFalse (by intro hc; cases hc; exact h rfl)
  | .ok _, .error _ => isFalse (by intro hc; cases hc)
  | .error _, .ok _ => isFalse (by intro hc; cases hc)

/-- The `ZipWithIter` state of `general_zip.rs`. -/
structure ZipWithIter (α β : Type) where
  output : Output β
  input : List (Input α)
  initial_len : Nat
  remaining_len : Nat
  should_free_output : Bool
deriving DecidableEq

/-- Exit state of the lock-step loop inside `try_into_vec`: the outcome
of the walk, the final inputs, the final output handle, and the
remaining length at exit. -/
structure LoopOut (ε α β : Type) where
  res : Except ε Unit
  inputs : List (Input α)
  out : Output β
  rem : Nat
deriving DecidableEq

/-- The `while let Some(remaining_len) = self.remaining_len.checked_sub(1)`
loop of `ZipWithIter::try_into_vec`: decrement the remaining length,
read one element from every input, apply `f`; on success write the
value to the next output slot and advance the write cursor, on failure
stop immediately with the state exactly as the `?` operator leaves it.
`none` marks an out-of-bounds read (undefined behaviour). -/
def zipLoop (f : List α → Except ε β) : Nat → List (Input α) → Output β → Option (LoopOut ε α β)
  | 0, inp, out => some ⟨.ok (), inp, out, 0⟩
  | n + 1, inp, out =>
    match tuple_next inp with
    | (none, _) => none
    | (some item, inp2) =>
      match f item with
      | .error e => some ⟨.error e, inp2, out, n⟩
      | .ok v => zipLoop f n inp2 ⟨out.start, out.off + 1, out.cap, out.buf ++ [v]⟩

/-- Disposals performed by one run of `impl Drop for ZipWithIter`: per
input the elements dropped by `drop_rest` and whether its allocation
was freed, plus the produced output values dropped and whether the
output allocation was freed. -/
structure DropOut (α β : Type) where
  inDropped : List (List α)
  inFreed : List Bool
  outDropped : List β
  outFreed : Bool
deriving DecidableEq

/-- `impl Drop for ZipWithIter`: compute
`filled = initial_len - remaining_len`, drop the rest of every input at
`filled`, then — deferred, so it runs even if an input's disposal
panics — if the output is still owned, rebuild and drop a vector of the
`filled - 1` outputs written so far, freeing the output allocation.
`none` marks the two exits that are undefined behaviour in the source:
the `filled - 1` underflow on `usize`, and claiming more initialized
output slots than were written. -/
def zipDrop (z : ZipWithIter α β) : Option (DropOut α β) :=
  let filled := z.initial_len - z.remaining_len
  let ins := tuple_drop_rest z.input filled
  if z.should_free_output then
    if filled = 0 then none
    else if z.output.buf.length + 1 < filled then none
    else some ⟨ins.map Prod.fst, ins.map Prod.snd, z.output.buf.take (filled - 1), true⟩
  else some ⟨ins.map Prod.fst, ins.map Prod.snd, [], false⟩

/-- Provenance of the result vector's allocation: a reused donor buffer
(with the donor's address and capacity) or a fresh allocation made on
the slow path. -/
inductive ResAlloc where
  | reused (addr : Nat) (cap : Nat)
  | fresh
deriving DecidableEq

/-- The result vector: allocation provenance and elements. -/
structure RVec (β : Type) where
  alloc : ResAlloc
  elems : List β
deriving DecidableEq

/-- Result of `ZipWithIter::try_into_vec` together with the final input
states, the number of loop iterations run
(`initial_len - remaining_len`, the `filled` count of the `Drop` impl)
and the disposals of the `Drop` run that ends the call on every path. -/
structure RunOut (ε α β : Type) where
  res : Except ε (RVec β)
  finalInputs : List (Input α)
  steps : Nat
  drops : DropOut α β
deriving DecidableEq

/-- `ZipWithIter::try_into_vec`: run the lock-step loop; on a transform
error the `?` operator drops `self` with `should_free_output` still
set; on success clear the flag, rebuild the result vector from the
output handle (`Vec::from_raw_parts(start, initial_len, cap)`) and then
drop `self`, which disposes of the unread input tails.  `none` marks
undefined behaviour (an out-of-bounds read, a `Drop` underflow, or a
declared result length that does not match what was written). -/
def try_into_vec (f : List α → Except ε β) (z : ZipWithIter α β) : Option (RunOut ε α β) :=
  match zipLoop f z.remaining_len z.input z.output with
  | none => none
  | some lo =>
    match lo.res with
    | .error e =>
      match zipDrop ⟨lo.out, lo.inputs, z.initial_len, lo.rem, z.should_free_output⟩ with
      | none => none
      | some d => some ⟨.error e, lo.inputs, z.initial_len - lo.rem, d⟩
    | .ok _ =>
      if lo.out.buf.length = z.initial_len then
        match zipDrop ⟨lo.out, lo.inputs, z.initial_len, lo.rem, false⟩ with
        | none => none
        | some d =>
          some ⟨.ok ⟨.reused lo.out.start lo.out.cap, lo.out.buf⟩, lo.inputs,
            z.initial_len - lo.rem, d⟩
      else none

/-- One `next()` of the slow path's zip of `vec::IntoIter`s (std
semantics, per the nested `a.zip(b)` built by `Tuple::into_iter`): read
the head iterator, then — only if it produced a value — the zipped tail
iterators.  Returns the produced item (or `none` when some iterator is
exhausted), the iterators' remaining elements, and the values that were
read out but discarded because a later iterator was exhausted. -/
def zip_next : List (List α) → Option (List α) × List (List α) × List (List α)
  | [] => (some [], [], [])
  | [l] =>
    match l with
    | [] => (none, [([] : List α)], [([] : List α)])
    | x :: xs => (some [x], [xs], [[]])
  | l :: rest =>
    match l with
    | [] => (none, l :: rest, (l :: rest).map (fun _ => []))
    | x :: xs =>
      match zip_next rest with
      | (some item, rest2, _) => (some (x :: item), xs :: rest2, (x :: xs) :: rest2 |>.map (fun _ => []))
      | (none, rest2, extras) => (none, xs :: rest2, [x] :: extras)

/-- Final state of a slow-path run: the `collect`ed result, the
elements left in each iterator (dropped when the iterators are), the
per-input values discarded by the exhausting zip step, the number of
transform applications, and the partially collected outputs dropped
when `collect` short-circuits. -/
structure SlowOut (ε α β : Type) where
  res : Except ε (List β)
  remaining : List (List α)
  extras : List (List α)
  count : Nat
  outDropped : List β
deriving DecidableEq

/-- The slow path `input.into_iter().map(f).map(R::into_result).collect()`
run operationally under std semantics: repeatedly `zip_next`, feed each
item to `f`, stop at exhaustion or at the first error (dropping the
partial output vector).  `fuel` is a termination device only; every
call below supplies more fuel than the minimum input length, which the
proofs show is never exhausted. -/
def slow_go (f : List α → Except ε β) : Nat → List (List α) → SlowOut ε α β
  | 0, ls => ⟨.ok [], ls, ls.map (fun _ => []), 0, []⟩
  | fuel + 1, ls =>
    match zip_next ls with
    | (none, ls2, extras) => ⟨.ok [], ls2, extras, 0, []⟩
    | (some item, ls2, _) =>
      match f item with
      | .error e => ⟨.error e, ls2, ls2.map (fun _ => []), 1, []⟩
      | .ok v =>
        let so := slow_go f fuel ls2
        match so.res with
        | .error e => ⟨.error e, so.remaining, so.extras, so.count + 1, v :: so.outDropped⟩
        | .ok vs => ⟨.ok (v :: vs), so.remaining, so.extras, so.count + 1, so.outDropped⟩

/-- The disposal ledger of one `try_zip_with` call, mirroring the
drop-count instrumentation of the spec's testable properties: per input
the elements handed to the transform, the elements read but discarded
by the slow path's exhausting zip step, the elements dropped unread,
and whether the input's allocation was freed; plus the produced output
values that were dropped, whether the output allocation was freed, and
the total number of transform applications. -/
structure Ledger (α β : Type) where
  fApplied : Nat
  handedToF : List (List α)
  droppedExtra : List (List α)
  droppedRest : List (List α)
  inFreed : List Bool
  outDropped : List β
  outAllocFreed : Bool
deriving DecidableEq

/-- Ledger of a fast-path run, read off the final `try_into_vec`
state: everything before each input's final cursor was handed to the
transform, and the `Drop` impl accounts for the rest. -/
def fastLedger (ro : RunOut ε α β) : Ledger α β :=
  { fApplied := ro.steps
    handedToF := ro.finalInputs.map (fun d => d.elems.take d.off)
    droppedExtra := ro.finalInputs.map (fun _ => [])
    droppedRest := ro.drops.inDropped
    inFreed := ro.drops.inFreed
    outDropped := ro.drops.outDropped
    outAllocFreed := ro.drops.outFreed }

/-- Ledger of a slow-path run (std iterator semantics): the first
`count` elements of each input were handed to the transform, `extras`
were read but discarded by the exhausting zip step, the iterators drop
their remaining elements and free every input allocation, and a
short-circuiting `collect` drops its partial output vector. -/
def slowLedger (ls : List (List α)) (so : SlowOut ε α β) : Ledger α β :=
  { fApplied := so.count
    handedToF := ls.map (fun l => l.take so.count)
    droppedExtra := so.extras
    droppedRest := so.remaining
    inFreed := ls.map (fun _ => true)
    outDropped := so.outDropped
    outAllocFreed := match so.res with | .error _ => true | .ok _ => false }

/-- The donor-reuse branch of `try_zip_with`: compute the target
length, decompose the inputs (`into_data`), claim the donor's buffer
(`In::take_output`) and run `ZipWithIter::try_into_vec`.  `none` marks
undefined behaviour, which the theorems below show is unreachable from
`try_zip_with`. -/
def fast_path (vl : Layout) (vecs : List (Vec α)) (f : List α → Except ε β) :
    Option (Except ε (RVec β) × Ledger α β) :=
  let len := remaining_len vecs
  let input := vecs.map Input.fromVec
  match (tuple_take_output vl input : Option (Output β × List (Input α))) with
  | none => none
  | some (out, input2) =>
    match try_into_vec f ⟨out, input2, len, len, true⟩ with
    | none => none
    | some ro => some (ro.res, fastLedger ro)

/-- The fallback branch of `try_zip_with`:
`input.into_iter().map(f).map(R::into_result).collect()`, collecting
into a freshly allocated vector. -/
def slow_path (vecs : List (Vec α)) (f : List α → Except ε β) :
    Except ε (RVec β) × Ledger α β :=
  let ls := vecs.map Vec.elems
  let so := slow_go f (remaining_len vecs + 1) ls
  (match so.res with
   | .error e => .error e
   | .ok vals => .ok ⟨.fresh, vals⟩,
   slowLedger ls so)

/-- `try_zip_with` of `general_zip.rs`: if some input's element layout
matches the output's (`In::check_layout::<R::Ok>()`), run the
donor-reuse fast path, otherwise the fresh-allocation slow path.
Returns the result together with the disposal ledger. -/
def try_zip_with (vl : Layout) (vecs : List (Vec α)) (f : List α → Except ε β) :
    Option (Except ε (RVec β) × Ledger α β) :=
  if check_layout vl vecs then fast_path vl vecs f
  else some (slow_path vecs f)

/-- A transform outcome that can also be a divergence (Rust panic):
unwinding propagates through `try_into_vec` exactly as the `?` early
return does — both drop `self`, running the identical `Drop` code — so
divergence is modelled as a distinguished error value. -/
inductive Unwind (ε : Type) where
  | err (e : ε)
  | diverge
deriving DecidableEq

/-- `Tuple::drop_rest` instrumented with per-input divergence of the
element disposals: the source registers the tail's `drop_rest` under
`defer!` (an `OnDrop` guard from `lib.rs`) before running the head's,
so the tail's disposal runs even when the head's diverges.  The `Bool`
result records whether some disposal diverged (the unwind resumes once
the guard has run). -/
def drop_rest_diverge (dv : List Bool) (inputs : List (Input α)) (len : Nat) :
    List (List α × Bool) × Bool :=
  match inputs with
  | [] => ([], false)
  | [a] => ([elem_drop_rest a len], dv.headD false)
  | a :: rest =>
    let tailRun := drop_rest_diverge dv.tail rest len
    (elem_drop_rest a len :: tailRun.1, dv.headD false || tailRun.2)

/-! ### Specification-side functions -/

/-- Advance an input's cursor by one: the state effect of
`next_unchecked` on a data segment. -/
def bump (d : Input α) : Input α := { d with off := d.off + 1 }

/-- Advance an input's cursor by `c`. -/
def bumpN (c : Nat) (d : Input α) : Input α := { d with off := d.off + c }

/-- The tuple of elements currently under the cursors (`none` when some
cursor is out of bounds). -/
def readItem : List (Input α) → Option (List α)
  | [] => some []
  | d :: rest =>
    match d.elems[d.off]?, readItem rest with
    | some x, some xs => some (x :: xs)
    | _, _ => none

/-- The tuple of the `i`-th elements of the input vectors (`none` when
some input is shorter than `i + 1`). -/
def itemAt : List (Vec α) → Nat → Option (List α)
  | [], _ => some []
  | v :: rest, i =>
    match v.elems[i]?, itemAt rest i with
    | some x, some xs => some (x :: xs)
    | _, _ => none

/-- The next `n` items the lock-step walk will read from a list of data
segments. -/
def itemsN : Nat → List (Input α) → Option (List (List α))
  | 0, _ => some []
  | n + 1, inp =>
    match readItem inp, itemsN n (inp.map bump) with
    | some x, some xs => some (x :: xs)
    | _, _ => none

/-- Specification mirror of a short-circuiting
`collect::<Result<Vec<_>, _>>` over a list of items. -/
def collectResult (f : List α → Except ε β) : List (List α) → Except ε (List β)
  | [] => .ok []
  | x :: xs =>
    match f x with
    | .error e => .error e
    | .ok v =>
      match collectResult f xs with
      | .error e => .error e
      | .ok vs => .ok (v :: vs)

/-- How many applications of the transform a short-circuiting traversal
performs. -/
def applyCount (f : List α → Except ε β) : List (List α) → Nat
  | [] => 0
  | x :: xs =>
    match f x with
    | .error _ => 1
    | .ok _ => applyCount f xs + 1

/-- The values produced before the first error. -/
def okVals (f : List α → Except ε β) : List (List α) → List β
  | [] => []
  | x :: xs =>
    match f x with
    | .error _ => []
    | .ok v => v :: okVals f xs

/-- The item sequence of the nested `Zip` iterator built by
`Tuple::into_iter`. -/
def list_items : List (List α) → List (List α)
  | [] => []
  | [l] => l.map (fun x => [x])
  | l :: rest => (l.zip (list_items rest)).map (fun p => p.1 :: p.2)

/-- Minimum length across a nonempty family of lists (`0` on the empty
family, which the `Tuple` trait cannot represent). -/
def minLens : List (List α) → Nat
  | [] => 0
  | [l] => l.length
  | l :: rest => min l.length (minLens rest)

/-! ### Concrete data for the closing witnesses -/

/-- A 4-byte, 4-aligned layout (e.g. `u32`). -/
def wL4 : Layout := ⟨4, 4⟩

/-- An 8-byte, 8-aligned layout (e.g. `u64`). -/
def wL8 : Layout := ⟨8, 8⟩

/-- Witness vector: address 100, capacity 3, `u32`-like, `[1,2,3]`. -/
def wv1 : Vec Nat := ⟨100, 3, wL4, [1, 2, 3]⟩

/-- Witness vector: address 200, capacity 5, `u32`-like, `[10,20,30]`. -/
def wv2 : Vec Nat := ⟨200, 5, wL4, [10, 20, 30]⟩

/-- Witness vector: address 100, capacity 4, `u32`-like, `[1,2,3,4]`. -/
def wv3 : Vec Nat := ⟨100, 4, wL4, [1, 2, 3, 4]⟩

/-- Witness vector: address 100, capacity 3, `u64`-like layout. -/
def wv8a : Vec Nat := ⟨100, 3, wL8, [1, 2, 3]⟩

/-- Witness vector: address 200, capacity 5, `u64`-like layout. -/
def wv8b : Vec Nat := ⟨200, 5, wL8, [10, 20, 30]⟩

/-- Witness vector: empty contents. -/
def wve : Vec Nat := ⟨200, 2, wL4, []⟩

/-- Witness transform: sum of the item tuple, never fails. -/
def wsum : List Nat → Except Unit Nat := fun xs => .ok (xs.foldl (· + ·) 0)

/-- Witness transform: fails with error `7` on the tuple headed by `2`. -/
def werr : List Nat → Except Nat Nat := fun xs =>
  if xs.headD 0 = 2 then .error 7 else .ok (xs.foldl (· + ·) 0)

/-- Witness transform: diverges on the tuple headed by `2`. -/
def wdiv : List Nat → Except (Unwind Unit) Nat := fun xs =>
  if xs.headD 0 = 2 then .error .diverge else .ok (xs.foldl (· + ·) 0)

/-- The single-input identity transform: maps the item `[x]` to `x`
(total on the items the engine feeds it). -/
def idTransform : List α → Except Unit α := fun xs =>
  match xs with
  | x :: _ => .ok x
  | [] => .error ()

/-- Witness data segment with a `u64`-like layout and capacity 2. -/
def wi1 : Input Nat := ⟨100, 0, 2, 2, true, wL8, [1, 2]⟩

/-- Witness data segment with a `u32`-like layout and capacity 9. -/
def wi2 : Input Nat := ⟨200, 0, 2, 9, true, wL4, [3, 4]⟩

/-! ### Basic lemmas -/

/-- Indexing a zip of two lists. -/
theorem zip_getElem? {δ : Type} (l1 : List γ) :
    ∀ (l2 : List δ) (i : Nat),
      (l1.zip l2)[i]? = (l1[i]?).bind (fun a => (l2[i]?).map (fun b => (a, b))) := by
  induction l1 with
  | nil => intro l2 i; simp
  | cons a t ih =>
    intro l2 i
    cases l2 with
    | nil => simp
    | cons b t2 =>
      cases i with
      | zero => simp [List.zip_cons_cons]
      | succ j => simp [List.zip_cons_cons, ih]

/-- `Tuple::LEN` is one less than the number of elements. -/
theorem tupleLEN_add_one : ∀ (l : List γ), l ≠ [] → tupleLEN l + 1 = l.length
  | [], h => absurd rfl h
  | [_], _ => rfl
  | a :: b :: t, _ => by
    have h := tupleLEN_add_one (b :: t) (by simp)
    simp only [tupleLEN, List.length_cons] at h ⊢
    omega

/-- `Tuple::check_layout` succeeds exactly when some input's element
layout equals the output layout. -/
theorem check_layout_iff (vl : Layout) :
    ∀ (vecs : List (Vec α)), check_layout vl vecs = true ↔ ∃ v, v ∈ vecs ∧ v.layout = vl
  | [] => by simp [check_layout]
  | [v] => by simp [check_layout]
  | v :: w :: t => by
    have ih := check_layout_iff vl (w :: t)
    simp only [check_layout, Bool.or_eq_true, decide_eq_true_eq, ih]
    constructor
    · rintro (h | ⟨u, hu, h⟩)
      · exact ⟨v, List.mem_cons_self v (w :: t), h⟩
      · exact ⟨u, List.mem_cons_of_mem v hu, h⟩
    · rintro ⟨u, hu, h⟩
      rcases List.mem_cons.mp hu with h' | h'
      · exact Or.inl (h' ▸ h)
      · exact Or.inr ⟨u, h', h⟩

/-- `remaining_len` is a lower bound on every input's length. -/
theorem remaining_len_le :
    ∀ (vecs : List (Vec α)) (v : Vec α), v ∈ vecs → remaining_len vecs ≤ v.elems.length
  | [], v, hv => absurd hv (List.not_mem_nil v)
  | [w], v, hv => by
    rcases List.mem_singleton.mp hv with rfl
    exact Nat.le_refl _
  | w :: u :: t, v, hv => by
    rcases List.mem_cons.mp hv with h | h
    · subst h
      exact Nat.min_le_left _ _
    · exact Nat.le_trans (Nat.min_le_right _ _) (remaining_len_le (u :: t) v h)

/-- `remaining_len` is attained by some input. -/
theorem remaining_len_mem :
    ∀ (vecs : List (Vec α)), vecs ≠ [] →
      ∃ v, v ∈ vecs ∧ remaining_len vecs = v.elems.length
  | [], h => absurd rfl h
  | [v], _ => ⟨v, List.mem_singleton_self v, rfl⟩
  | v :: w :: t, _ => by
    obtain ⟨u, hu, he⟩ := remaining_len_mem (w :: t) (by simp)
    rcases Nat.le_total v.elems.length (remaining_len (w :: t)) with h | h
    · exact ⟨v, List.mem_cons_self v (w :: t),
        by simp only [remaining_len]; omega⟩
    · refine ⟨u, List.mem_cons_of_mem v hu, ?_⟩
      simp only [remaining_len]
      omega

/-- `remaining_len` agrees with the minimum length of the element
lists. -/
theorem remaining_len_eq_minLens :
    ∀ (vecs : List (Vec α)), remaining_len vecs = minLens (vecs.map Vec.elems)
  | [] => rfl
  | [v] => rfl
  | v :: w :: t => by
    have ih := remaining_len_eq_minLens (w :: t)
    simp only [remaining_len, List.map_cons, minLens] at ih ⊢
    rw [ih]

/-- `itemAt` is defined whenever every input is long enough. -/
theorem itemAt_isSome (i : Nat) :
    ∀ (vecs : List (Vec α)), (∀ v, v ∈ vecs → i < v.elems.length) →
      ∃ it, itemAt vecs i = some it
  | [], _ => ⟨[], rfl⟩
  | v :: rest, h => by
    obtain ⟨it, hit⟩ := itemAt_isSome i rest (fun u hu => h u (List.mem_cons_of_mem _ hu))
    have hv : i < v.elems.length := h v (List.mem_cons_self _ _)
    exact ⟨v.elems[i] :: it, by simp [itemAt, List.getElem?_eq_getElem hv, hit]⟩

/-- Bumping by zero is the identity on data segments. -/
theorem map_bumpN_zero (inp : List (Input α)) : inp.map (bumpN 0) = inp := by
  have h : ∀ d : Input α, bumpN 0 d = d := fun d => by simp [bumpN]
  rw [List.map_congr_left (fun a _ => h a)]
  exact List.map_id' inp

/-- Bump composition. -/
theorem bump_bumpN (c : Nat) (d : Input α) : bump (bumpN c d) = bumpN (c + 1) d := by
  simp [bump, bumpN, Nat.add_assoc]

/-- Bump composition, the other association. -/
theorem bumpN_bump (c : Nat) (d : Input α) : bumpN c (bump d) = bumpN (c + 1) d := by
  simp [bump, bumpN]
  omega

/-- Reading the cursors of decomposed inputs bumped by `c` reads the
`c`-th elements of the vectors. -/
theorem readItem_bumpN (c : Nat) :
    ∀ (vecs : List (Vec α)),
      readItem ((vecs.map Input.fromVec).map (bumpN c)) = itemAt vecs c
  | [] => rfl
  | v :: rest => by
    have ih := readItem_bumpN c rest
    simp only [List.map_cons, readItem, itemAt, Input.fromVec, bumpN] at ih ⊢
    rw [ih]
    simp

/-- `Tuple::next_unchecked` reads the item under the cursors and bumps
every cursor. -/
theorem tuple_next_eq : ∀ (inp : List (Input α)), tuple_next inp = (readItem inp, inp.map bump)
  | [] => rfl
  | [a] => by
    cases h : a.elems[a.off]? <;>
      simp [tuple_next, readItem, elem_next, bump, h]
  | a :: b :: t => by
    have ih := tuple_next_eq (b :: t)
    simp only [tuple_next, elem_next, ih, readItem, List.map_cons]
    cases a.elems[a.off]? <;> cases readItem (b :: t) <;> simp [bump]

/-- Reading ignores the ownership flag: replacing one element by a copy
with `drop_alloc` cleared does not change what is read. -/
theorem readItem_set_claim :
    ∀ (inp : List (Input α)) (i : Nat) (d0 : Input α), inp[i]? = some d0 →
      readItem (inp.set i { d0 with drop_alloc := false }) = readItem inp
  | [], i, _, h => by simp at h
  | d :: rest, 0, d0, h => by
    simp only [List.getElem?_cons_zero, Option.some.injEq] at h
    subst h
    simp [List.set, readItem]
  | d :: rest, i + 1, d0, h => by
    simp only [List.getElem?_cons_succ] at h
    have ih := readItem_set_claim rest i d0 h
    simp [List.set, readItem, ih]

/-- Bumping commutes with claiming the donor. -/
theorem map_bump_set_claim (inp : List (Input α)) (i : Nat) (d0 : Input α) :
    (inp.set i { d0 with drop_alloc := false }).map bump =
      (inp.map bump).set i { bump d0 with drop_alloc := false } := by
  rw [List.map_set]
  rfl

/-- The items of the walk ignore the ownership flag. -/
theorem itemsN_set_claim :
    ∀ (n : Nat) (inp : List (Input α)) (i : Nat) (d0 : Input α), inp[i]? = some d0 →
      itemsN n (inp.set i { d0 with drop_alloc := false }) = itemsN n inp
  | 0, _, _, _, _ => rfl
  | n + 1, inp, i, d0, h => by
    have h2 : (inp.map bump)[i]? = some (bump d0) := by
      rw [List.getElem?_map, h]
      rfl
    have ih := itemsN_set_claim n (inp.map bump) i (bump d0) h2
    simp only [itemsN, readItem_set_claim inp i d0 h, map_bump_set_claim, ih]

/-- The items of the lock-step walk over decomposed inputs bumped by
`c` are the item tuples of the vectors starting at position `c`. -/
theorem itemsN_fromVec :
    ∀ (n c : Nat) (vecs : List (Vec α)), (∀ v, v ∈ vecs → c + n ≤ v.elems.length) →
      ∃ items, itemsN n ((vecs.map Input.fromVec).map (bumpN c)) = some items ∧
        items.length = n ∧ ∀ s, s < n → items[s]? = itemAt vecs (c + s)
  | 0, c, vecs, _ => ⟨[], rfl, rfl, fun s hs => absurd hs (Nat.not_lt_zero s)⟩
  | n + 1, c, vecs, h => by
    have hc : ∀ v, v ∈ vecs → c < v.elems.length := fun v hv => by
      have := h v hv; omega
    obtain ⟨it, hit⟩ := itemAt_isSome c vecs hc
    have hread : readItem ((vecs.map Input.fromVec).map (bumpN c)) = some it := by
      rw [readItem_bumpN]; exact hit
    have hmm : ((vecs.map Input.fromVec).map (bumpN c)).map bump =
        (vecs.map Input.fromVec).map (bumpN (c + 1)) := by
      rw [List.map_map]
      exact List.map_congr_left (fun a _ => bump_bumpN c a)
    obtain ⟨items', hI, hlen, hpt⟩ := itemsN_fromVec n (c + 1) vecs
      (fun v hv => by have := h v hv; omega)
    refine ⟨it :: items', ?_, by simp [hlen], ?_⟩
    · simp only [itemsN, hread, hmm, hI]
    · intro s hs
      cases s with
      | zero => simp only [List.getElem?_cons_zero, Nat.add_zero, hit]
      | succ s' =>
        have hp := hpt s' (by omega)
        simp only [List.getElem?_cons_succ]
        rw [hp]
        congr 1
        omega

/-- A traversal that gets stuck at an error makes at least one
application. -/
theorem applyCount_pos_of_error (f : List α → Except ε β) :
    ∀ (items : List (List α)) (e : ε), collectResult f items = .error e →
      1 ≤ applyCount f items
  | [], e, h => by simp [collectResult] at h
  | x :: xs, e, h => by
    cases hf : f x <;> simp [applyCount, hf]

/-- The number of applications never exceeds the number of items. -/
theorem applyCount_le_length (f : List α → Except ε β) :
    ∀ (items : List (List α)), applyCount f items ≤ items.length
  | [] => Nat.le_refl 0
  | x :: xs => by
    have := applyCount_le_length f xs
    cases hf : f x <;> simp [applyCount, hf] <;> omega

/-- When every application succeeds the traversal applies the transform
once per item. -/
theorem applyCount_of_ok (f : List α → Except ε β) :
    ∀ (items : List (List α)) (vals : List β), collectResult f items = .ok vals →
      applyCount f items = items.length
  | [], vals, _ => rfl
  | x :: xs, vals, h => by
    cases hf : f x with
    | error e => simp [collectResult, hf] at h
    | ok v =>
      simp only [collectResult, hf] at h
      cases hcc : collectResult f xs with
      | error e => rw [hcc] at h; simp at h
      | ok vs =>
        have := applyCount_of_ok f xs vs hcc
        simp [applyCount, hf, this]

/-- A successful traversal produces one value per item, each the
successful application of the transform to the corresponding item. -/
theorem collectResult_ok_getElem? (f : List α → Except ε β) :
    ∀ (items : List (List α)) (vals : List β), collectResult f items = .ok vals →
      vals.length = items.length ∧
        ∀ (s : Nat) (item : List α), items[s]? = some item →
          ∃ y, f item = .ok y ∧ vals[s]? = some y
  | [], vals, h => by
    simp only [collectResult, Except.ok.injEq] at h
    subst h
    exact ⟨rfl, fun s item hs => by simp at hs⟩
  | x :: xs, vals, h => by
    cases hf : f x with
    | error e => simp [collectResult, hf] at h
    | ok v =>
      simp only [collectResult, hf] at h
      cases hcc : collectResult f xs with
      | error e => rw [hcc] at h; simp at h
      | ok vs =>
        rw [hcc] at h
        simp only [Except.ok.injEq] at h
        subst h
        obtain ⟨hlen, hpt⟩ := collectResult_ok_getElem? f xs vs hcc
        refine ⟨by simp [hlen], ?_⟩
        intro s item hs
        cases s with
        | zero =>
          simp only [List.getElem?_cons_zero, Option.some.injEq] at hs
          subst hs
          exact ⟨v, hf, by simp⟩
        | succ s' =>
          simp only [List.getElem?_cons_succ] at hs ⊢
          exact hpt s' item hs

/-- On an error the produced values are one fewer than the number of
applications, and are the successful prefix applications in order. -/
theorem okVals_of_error (f : List α → Except ε β) :
    ∀ (items : List (List α)) (e : ε), collectResult f items = .error e →
      (okVals f items).length = applyCount f items - 1 ∧
        ∀ (j : Nat) (item : List α), j + 1 < applyCount f items → items[j]? = some item →
          ∃ y, f item = .ok y ∧ (okVals f items)[j]? = some y
  | [], e, h => by simp [collectResult] at h
  | x :: xs, e, h => by
    cases hf : f x with
    | error e0 =>
      refine ⟨by simp [okVals, applyCount, hf], ?_⟩
      intro j item hj _
      simp [applyCount, hf] at hj
    | ok v =>
      simp only [collectResult, hf] at h
      cases hcc : collectResult f xs with
      | ok vs => rw [hcc] at h; simp at h
      | error e1 =>
        rw [hcc] at h
        obtain ⟨hlen, hpt⟩ := okVals_of_error f xs e1 hcc
        have hpos := applyCount_pos_of_error f xs e1 hcc
        refine ⟨by simp [okVals, applyCount, hf]; omega, ?_⟩
        intro j item hj hs
        cases j with
        | zero =>
          simp only [List.getElem?_cons_zero, Option.some.injEq] at hs
          subst hs
          exact ⟨v, hf, by simp [okVals, hf]⟩
        | succ j' =>
          simp only [applyCount, hf] at hj
          simp only [List.getElem?_cons_succ] at hs
          obtain ⟨y, hy, hv⟩ := hpt j' item (by omega) hs
          exact ⟨y, hy, by simp [okVals, hf, List.getElem?_cons_succ, hv]⟩

/-- The lock-step loop on an all-successful item list: every cursor
advances `n` positions, the `n` produced values are appended to the
output buffer, and the loop exits normally with nothing remaining. -/
theorem zipLoop_ok (f : List α → Except ε β) :
    ∀ (n : Nat) (inp : List (Input α)) (out : Output β) (items : List (List α)) (vals : List β),
      itemsN n inp = some items → collectResult f items = .ok vals →
      zipLoop f n inp out =
        some ⟨.ok (), inp.map (bumpN n), ⟨out.start, out.off + n, out.cap, out.buf ++ vals⟩, 0⟩
  | 0, inp, out, items, vals, hI, hC => by
    simp only [itemsN, Option.some.injEq] at hI
    subst hI
    simp only [collectResult, Except.ok.injEq] at hC
    subst hC
    simp [zipLoop, map_bumpN_zero]
  | n + 1, inp, out, items, vals, hI, hC => by
    simp only [itemsN] at hI
    cases hr : readItem inp with
    | none => rw [hr] at hI; simp at hI
    | some x =>
      cases hn : itemsN n (inp.map bump) with
      | none => rw [hr, hn] at hI; simp at hI
      | some xs =>
        rw [hr, hn] at hI
        simp only [Option.some.injEq] at hI
        subst hI
        simp only [collectResult] at hC
        cases hf : f x with
        | error e => rw [hf] at hC; simp at hC
        | ok v =>
          rw [hf] at hC
          cases hcc : collectResult f xs with
          | error e => rw [hcc] at hC; simp at hC
          | ok vs =>
            rw [hcc] at hC
            simp only [Except.ok.injEq] at hC
            subst hC
            have ih := zipLoop_ok f n (inp.map bump)
              ⟨out.start, out.off + 1, out.cap, out.buf ++ [v]⟩ xs vs hn hcc
            simp only [zipLoop, tuple_next_eq, hr, hf, ih]
            have h1 : (inp.map bump).map (bumpN n) = inp.map (bumpN (n + 1)) := by
              rw [List.map_map]
              exact List.map_congr_left (fun a _ => bumpN_bump n a)
            have h2 : out.off + 1 + n = out.off + (n + 1) := by omega
            have h3 : (out.buf ++ [v]) ++ vs = out.buf ++ v :: vs := by simp
            rw [h1, h2, h3]

/-- The lock-step loop when the `k`-th application is the first to
fail: every cursor advances `k` positions, the `k - 1` successful
values are in the output buffer, and the loop exits with the error and
`n - k` remaining. -/
theorem zipLoop_err (f : List α → Except ε β) :
    ∀ (n : Nat) (inp : List (Input α)) (out : Output β) (items : List (List α)) (e : ε),
      itemsN n inp = some items → collectResult f items = .error e →
      zipLoop f n inp out =
        some ⟨.error e, inp.map (bumpN (applyCount f items)),
          ⟨out.start, out.off + (applyCount f items - 1), out.cap, out.buf ++ okVals f items⟩,
          n - applyCount f items⟩
  | 0, inp, out, items, e, hI, hC => by
    simp only [itemsN, Option.some.injEq] at hI
    subst hI
    simp [collectResult] at hC
  | n + 1, inp, out, items, e, hI, hC => by
    simp only [itemsN] at hI
    cases hr : readItem inp with
    | none => rw [hr] at hI; simp at hI
    | some x =>
      cases hn : itemsN n (inp.map bump) with
      | none => rw [hr, hn] at hI; simp at hI
      | some xs =>
        rw [hr, hn] at hI
        simp only [Option.some.injEq] at hI
        subst hI
        cases hf : f x with
        | error e0 =>
          simp only [collectResult, hf, Except.error.injEq] at hC
          subst hC
          simp only [zipLoop, tuple_next_eq, hr, hf]
          have h1 : inp.map bump = inp.map (bumpN (applyCount f (x :: xs))) := by
            simp only [applyCount, hf]
            exact List.map_congr_left (fun a _ => rfl)
          have h2 : out.off + (applyCount f (x :: xs) - 1) = out.off := by
            simp [applyCount, hf]
          have h3 : out.buf ++ okVals f (x :: xs) = out.buf := by
            simp [okVals, hf]
          have h4 : n + 1 - applyCount f (x :: xs) = n := by
            simp [applyCount, hf]
          rw [h2, h3, h4]
          rw [h1]
  -- error in the tail: shift the accounting by one
        | ok v =>
          simp only [collectResult, hf] at hC
          cases hcc : collectResult f xs with
          | ok vs => rw [hcc] at hC; simp at hC
          | error e1 =>
            rw [hcc] at hC
            simp only [Except.error.injEq] at hC
            subst hC
            have hpos := applyCount_pos_of_error f xs e1 hcc
            have ih := zipLoop_err f n (inp.map bump)
              ⟨out.start, out.off + 1, out.cap, out.buf ++ [v]⟩ xs e1 hn hcc
            simp only [zipLoop, tuple_next_eq, hr, hf, ih]
            have h1 : (inp.map bump).map (bumpN (applyCount f xs)) =
                inp.map (bumpN (applyCount f (x :: xs))) := by
              rw [List.map_map]
              refine List.map_congr_left (fun a _ => ?_)
              have : applyCount f (x :: xs) = applyCount f xs + 1 := by
                simp [applyCount, hf]
              rw [this]
              exact bumpN_bump _ a
            have h2 : out.off + 1 + (applyCount f xs - 1) =
                out.off + (applyCount f (x :: xs) - 1) := by
              simp only [applyCount, hf]
              omega
            have h3 : (out.buf ++ [v]) ++ okVals f xs = out.buf ++ okVals f (x :: xs) := by
              simp [okVals, hf]
            have h4 : n - applyCount f xs = n + 1 - applyCount f (x :: xs) := by
              simp only [applyCount, hf]
              omega
            rw [h1, h2, h3, h4]

/-- With no layout-matching element, `max_cap` selects nothing and
leaves the depth out-parameter untouched. -/
theorem max_cap_none (vl : Layout) :
    ∀ (inputs : List (Input α)) (d0 : Nat), (∀ d, d ∈ inputs → d.layout ≠ vl) →
      max_cap vl inputs d0 = (none, d0)
  | [], d0, _ => rfl
  | [a], d0, h => by
    simp [max_cap, h a (List.mem_singleton_self a)]
  | a :: b :: t, d0, h => by
    have ih := max_cap_none vl (b :: t) d0 (fun d hd => h d (List.mem_cons_of_mem a hd))
    simp [max_cap, ih, h a (List.mem_cons_self a (b :: t))]

/-- With at least one layout-matching element, `max_cap` selects, among
exactly the matching elements, the one of largest capacity, the
earliest in call-site order winning ties; the returned depth encodes
its position from the end of the list. -/
theorem max_cap_some (vl : Layout) :
    ∀ (inputs : List (Input α)) (d0 : Nat) (dm : Input α), dm ∈ inputs → dm.layout = vl →
      ∃ c depth i di,
        max_cap vl inputs d0 = (some c, depth) ∧
        i + depth + 1 = inputs.length ∧
        inputs[i]? = some di ∧ di.layout = vl ∧ di.cap = c ∧
        (∀ (j : Nat) (dj : Input α), inputs[j]? = some dj → dj.layout = vl → dj.cap ≤ c) ∧
        (∀ (j : Nat) (dj : Input α), j < i → inputs[j]? = some dj → dj.layout = vl →
          dj.cap < c)
  | [], d0, dm, hm, _ => absurd hm (List.not_mem_nil dm)
  | [a], d0, dm, hm, hl => by
    rcases List.mem_singleton.mp hm with rfl
    refine ⟨dm.cap, 0, 0, dm, ?_, rfl, rfl, hl, rfl, ?_, ?_⟩
    · simp [max_cap, hl]
    · intro j dj hj hlj
      cases j with
      | zero =>
        simp only [List.getElem?_cons_zero, Option.some.injEq] at hj
        subst hj
        exact Nat.le_refl _
      | succ j' => simp at hj
    · intro j dj hj
      omega
  | a :: b :: t, d0, dm, hm, hl => by
    by_cases hmatch : ∃ d, d ∈ b :: t ∧ d.layout = vl
    · obtain ⟨dt, hdt, hdtl⟩ := hmatch
      obtain ⟨ct, deptht, it, dit, hmc, hlen, hget, hgl, hgc, hub, hstrict⟩ :=
        max_cap_some vl (b :: t) d0 dt hdt hdtl
      by_cases ha : a.layout = vl
      · by_cases hcap : a.cap < ct
        · -- the tail's donor keeps winning
          refine ⟨ct, deptht, it + 1, dit, ?_, by simp at hlen ⊢; omega, ?_, hgl, hgc, ?_, ?_⟩
          · simp [max_cap, hmc, ha, hcap]
          · simpa using hget
          · intro j dj hj hlj
            cases j with
            | zero =>
              simp only [List.getElem?_cons_zero, Option.some.injEq] at hj
              subst hj
              omega
            | succ j' =>
              simp only [List.getElem?_cons_succ] at hj
              exact hub j' dj hj hlj
          · intro j dj hj hgj hlj
            cases j with
            | zero =>
              simp only [List.getElem?_cons_zero, Option.some.injEq] at hgj
              subst hgj
              omega
            | succ j' =>
              simp only [List.getElem?_cons_succ] at hgj
              exact hstrict j' dj (by omega) hgj hlj
        · -- the head takes over: at least as large as the tail's best
          refine ⟨a.cap, tupleLEN (a :: b :: t), 0, a, ?_, ?_, rfl, ha, rfl, ?_, ?_⟩
          · simp [max_cap, hmc, ha, hcap]
          · have := tupleLEN_add_one (a :: b :: t) (by simp)
            omega
          · intro j dj hj hlj
            cases j with
            | zero =>
              simp only [List.getElem?_cons_zero, Option.some.injEq] at hj
              subst hj
              exact Nat.le_refl _
            | succ j' =>
              simp only [List.getElem?_cons_succ] at hj
              have := hub j' dj hj hlj
              omega
          · intro j dj hj
            omega
      · -- head does not match: the tail's answer passes through
        refine ⟨ct, deptht, it + 1, dit, ?_, by simp at hlen ⊢; omega, ?_, hgl, hgc, ?_, ?_⟩
        · simp [max_cap, hmc, ha]
        · simpa using hget
        · intro j dj hj hlj
          cases j with
          | zero =>
            simp only [List.getElem?_cons_zero, Option.some.injEq] at hj
            subst hj
            exact absurd hlj ha
          | succ j' =>
            simp only [List.getElem?_cons_succ] at hj
            exact hub j' dj hj hlj
        · intro j dj hj hgj hlj
          cases j with
          | zero =>
            simp only [List.getElem?_cons_zero, Option.some.injEq] at hgj
            subst hgj
            exact absurd hlj ha
          | succ j' =>
            simp only [List.getElem?_cons_succ] at hgj
            exact hstrict j' dj (by omega) hgj hlj
    · -- no match in the tail, so the head must match
      have ha : a.layout = vl := by
        rcases List.mem_cons.mp hm with h | h
        · exact h ▸ hl
        · exact absurd ⟨dm, h, hl⟩ hmatch
      have hnone := max_cap_none vl (b :: t) d0
        (fun d hd hdl => hmatch ⟨d, hd, hdl⟩)
      refine ⟨a.cap, tupleLEN (a :: b :: t), 0, a, ?_, ?_, rfl, ha, rfl, ?_, ?_⟩
      · simp [max_cap, hnone, ha]
      · have := tupleLEN_add_one (a :: b :: t) (by simp)
        omega
      · intro j dj hj hlj
        cases j with
        | zero =>
          simp only [List.getElem?_cons_zero, Option.some.injEq] at hj
          subst hj
          exact Nat.le_refl _
        | succ j' =>
          simp only [List.getElem?_cons_succ] at hj
          exact absurd hlj (fun hc => hmatch ⟨dj, List.getElem?_mem hj, hc⟩)
      · intro j dj hj
        omega

/-- `take_output_impl` claims exactly the element whose `LEN` equals
the requested depth (position `i` from the front when
`i + depth + 1 = length`). -/
theorem take_output_impl_at (β : Type) :
    ∀ (inputs : List (Input α)) (depth i : Nat) (di : Input α),
      i + depth + 1 = inputs.length → inputs[i]? = some di →
      (take_output_impl depth inputs : Option (Output β × List (Input α))) =
        some (⟨di.start, 0, di.cap, []⟩, inputs.set i { di with drop_alloc := false })
  | [], depth, i, di, hlen, _ => by simp at hlen
  | [a], depth, i, di, hlen, hget => by
    have hi : i = 0 := by simp at hlen; omega
    subst hi
    simp only [List.getElem?_cons_zero, Option.some.injEq] at hget
    subst hget
    rfl
  | a :: b :: t, depth, i, di, hlen, hget => by
    have hLEN : tupleLEN (a :: b :: t) + 1 = (a :: b :: t).length :=
      tupleLEN_add_one (a :: b :: t) (by simp)
    by_cases hd : tupleLEN (a :: b :: t) = depth
    · have hi : i = 0 := by omega
      subst hi
      simp only [List.getElem?_cons_zero, Option.some.injEq] at hget
      subst hget
      simp [take_output_impl, hd, elem_take_output, List.set]
    · have hi : i ≠ 0 := by
        intro h0
        subst h0
        simp only [List.length_cons] at hlen hLEN
        omega
      obtain ⟨i', rfl⟩ : ∃ i', i = i' + 1 := ⟨i - 1, by omega⟩
      simp only [List.getElem?_cons_succ] at hget
      have ih := take_output_impl_at β (b :: t) depth i' di
        (by simp at hlen ⊢; omega) hget
      simp [take_output_impl, hd, ih, List.set]

/-- `Tuple::take_output` claims a layout-matching element of maximal
capacity (the earliest on ties) whenever one exists, clearing its
ownership flag and handing out its buffer. -/
theorem tuple_take_output_eq (β : Type) (vl : Layout) :
    ∀ (inputs : List (Input α)) (dm : Input α), dm ∈ inputs → dm.layout = vl →
      ∃ i di, inputs[i]? = some di ∧ di.layout = vl ∧
        (tuple_take_output vl inputs : Option (Output β × List (Input α))) =
          some (⟨di.start, 0, di.cap, []⟩, inputs.set i { di with drop_alloc := false }) ∧
        (∀ (j : Nat) (dj : Input α), inputs[j]? = some dj → dj.layout = vl →
          dj.cap ≤ di.cap) ∧
        (∀ (j : Nat) (dj : Input α), j < i → inputs[j]? = some dj → dj.layout = vl →
          dj.cap < di.cap)
  | [], dm, hm, _ => absurd hm (List.not_mem_nil dm)
  | [a], dm, hm, hl => by
    rcases List.mem_singleton.mp hm with rfl
    refine ⟨0, dm, rfl, hl, rfl, ?_, ?_⟩
    · intro j dj hj hlj
      cases j with
      | zero =>
        simp only [List.getElem?_cons_zero, Option.some.injEq] at hj
        subst hj
        exact Nat.le_refl _
      | succ j' => simp at hj
    · intro j dj hj
      omega
  | a :: b :: t, dm, hm, hl => by
    obtain ⟨c, depth, i, di, hmc, hlen, hget, hgl, hgc, hub, hstrict⟩ :=
      max_cap_some vl (a :: b :: t) 0 dm hm hl
    refine ⟨i, di, hget, hgl, ?_, by rw [hgc]; exact hub, by rw [hgc]; exact hstrict⟩
    have himpl := take_output_impl_at β (a :: b :: t) depth i di
      (by omega) hget
    simp only [tuple_take_output, hmc, himpl]

/-- Two maps to the constant empty list agree when the lengths do. -/
theorem map_nil_fun {δ δ' : Type} :
    ∀ (l1 : List δ) (l2 : List δ'), l1.length = l2.length →
      l1.map (fun _ => ([] : List α)) = l2.map (fun _ => ([] : List α))
  | [], [], _ => rfl
  | [], _ :: _, h => by simp at h
  | _ :: _, [], h => by simp at h
  | _ :: t1, _ :: t2, h => by
    simp only [List.map_cons]
    rw [map_nil_fun t1 t2 (by simpa using h)]

/-- The minimum length vanishes exactly when some list is empty. -/
theorem minLens_zero_iff : ∀ (ls : List (List α)), ls ≠ [] →
    (minLens ls = 0 ↔ ∃ l, l ∈ ls ∧ l = [])
  | [], h => absurd rfl h
  | [l], _ => by
    simp only [minLens]
    constructor
    · intro h
      exact ⟨l, List.mem_singleton_self l, List.length_eq_zero.mp h⟩
    · rintro ⟨l', hl', rfl⟩
      rcases List.mem_singleton.mp hl' with rfl
      rfl
  | l :: r :: t, _ => by
    have ih := minLens_zero_iff (r :: t) (by simp)
    simp only [minLens]
    constructor
    · intro h
      have hd : l.length = 0 ∨ minLens (r :: t) = 0 := by omega
      rcases hd with h0 | h0
      · exact ⟨l, List.mem_cons_self l (r :: t), List.length_eq_zero.mp h0⟩
      · obtain ⟨l', hl', he⟩ := ih.mp h0
        exact ⟨l', List.mem_cons_of_mem l hl', he⟩
    · rintro ⟨l', hl', rfl⟩
      rcases List.mem_cons.mp hl' with h | h
      · subst h
        simp
      · have := ih.mpr ⟨[], h, rfl⟩
        omega

/-- Taking every tail decrements the minimum length. -/
theorem minLens_tail : ∀ (ls : List (List α)), ls ≠ [] →
    minLens (ls.map List.tail) = minLens ls - 1
  | [], h => absurd rfl h
  | [l], _ => by simp [minLens, List.length_tail]
  | l :: r :: t, _ => by
    have ih := minLens_tail (r :: t) (by simp)
    simp only [List.map_cons, minLens, List.length_tail] at ih ⊢
    omega

/-- Tails then dropping `m - 1` is dropping `m` (for positive `m`). -/
theorem map_tail_drop (m : Nat) (hm : 1 ≤ m) (ls : List (List α)) :
    (ls.map List.tail).map (fun l => l.drop (m - 1)) = ls.map (fun l => l.drop m) := by
  rw [List.map_map]
  refine List.map_congr_left (fun l _ => ?_)
  show (l.tail).drop (m - 1) = l.drop m
  rw [← List.drop_one, List.drop_drop]
  congr 1
  omega

/-- Tails then dropping `k` is dropping `k + 1`. -/
theorem map_tail_drop_succ (k : Nat) (ls : List (List α)) :
    (ls.map List.tail).map (fun l => l.drop k) = ls.map (fun l => l.drop (k + 1)) := by
  rw [List.map_map]
  refine List.map_congr_left (fun l _ => ?_)
  show (l.tail).drop k = l.drop (k + 1)
  rw [← List.drop_one, List.drop_drop, Nat.add_comm]

/-- The zip iterator yields nothing when some input is empty, and every
element it read out on that last step together with what remains is
exactly what the input held. -/
theorem zip_next_none_parts :
    ∀ (ls : List (List α)), (∃ l, l ∈ ls ∧ l = []) →
      (zip_next ls).1 = none ∧
      ∀ (j : Nat) (lj : List α), ls[j]? = some lj →
        ∃ rj ej, (zip_next ls).2.1[j]? = some rj ∧ (zip_next ls).2.2[j]? = some ej ∧
          ej ++ rj = lj
  | [], h => by
    obtain ⟨l, hl, _⟩ := h
    exact absurd hl (List.not_mem_nil l)
  | [l], h => by
    obtain ⟨l', hl', he⟩ := h
    rcases List.mem_singleton.mp hl' with rfl
    subst he
    refine ⟨rfl, ?_⟩
    intro j lj hj
    cases j with
    | zero =>
      simp only [List.getElem?_cons_zero, Option.some.injEq] at hj
      subst hj
      exact ⟨[], [], rfl, rfl, rfl⟩
    | succ j' => simp at hj
  | l :: r :: t, h => by
    cases hl : l with
    | nil =>
      refine ⟨by simp [zip_next], ?_⟩
      intro j lj hj
      subst hl
      refine ⟨lj, [], ?_, ?_, rfl⟩
      · simpa [zip_next] using hj
      · simp only [zip_next, List.getElem?_map, hj]
        rfl
    | cons x xs =>
      subst hl
      have hrt : ∃ l', l' ∈ r :: t ∧ l' = [] := by
        obtain ⟨l', hl', he⟩ := h
        rcases List.mem_cons.mp hl' with h0 | h0
        · subst he
          simp at h0
        · exact ⟨l', h0, he⟩
      obtain ⟨hz1, hparts⟩ := zip_next_none_parts (r :: t) hrt
      rcases hzz : zip_next (r :: t) with ⟨z1, z2, z3⟩
      rw [hzz] at hz1
      simp only at hz1
      subst hz1
      refine ⟨by simp [zip_next, hzz], ?_⟩
      intro j lj hj
      cases j with
      | zero =>
        simp only [List.getElem?_cons_zero, Option.some.injEq] at hj
        subst hj
        exact ⟨xs, [x], by simp [zip_next, hzz], by simp [zip_next, hzz], rfl⟩
      | succ j' =>
        simp only [List.getElem?_cons_succ] at hj
        obtain ⟨rj, ej, h1, h2, h3⟩ := hparts j' lj hj
        rw [hzz] at h1 h2
        simp only at h1 h2
        exact ⟨rj, ej, by simp [zip_next, hzz, h1], by simp [zip_next, hzz, h2], h3⟩

/-- When every input is nonempty, one zip step reads all the heads,
leaves all the tails, and discards nothing; and the head item of
`list_items` is exactly that step's item. -/
theorem list_items_cons_of_ne :
    ∀ (ls : List (List α)), ls ≠ [] → (∀ l, l ∈ ls → l ≠ []) →
      ∃ item, zip_next ls = (some item, ls.map List.tail, ls.map (fun _ => [])) ∧
        list_items ls = item :: list_items (ls.map List.tail)
  | [], hne, _ => absurd rfl hne
  | [l], _, hall => by
    obtain ⟨x, xs, rfl⟩ := List.exists_cons_of_ne_nil (hall l (List.mem_singleton_self l))
    exact ⟨[x], rfl, by simp [list_items]⟩
  | l :: r :: t, _, hall => by
    obtain ⟨x, xs, rfl⟩ := List.exists_cons_of_ne_nil (hall l (List.mem_cons_self _ _))
    obtain ⟨it, hz, hli⟩ := list_items_cons_of_ne (r :: t) (by simp)
      (fun l' hl' => hall l' (List.mem_cons_of_mem _ hl'))
    have hlen : ((x :: xs) :: (r :: t).map List.tail).length = ((x :: xs) :: r :: t).length := by
      simp
    refine ⟨x :: it, ?_, ?_⟩
    · simp only [zip_next, hz]
      refine Prod.ext rfl (Prod.ext rfl ?_)
      simp only
      exact map_nil_fun _ _ hlen
    · simp only [List.map_cons, List.tail_cons, list_items]
      simp only [List.map_cons] at hli
      rw [hli]
      simp [List.zip_cons_cons, list_items]

/-- `list_items` is empty when some input is empty. -/
theorem list_items_nil_of_empty :
    ∀ (ls : List (List α)), (∃ l, l ∈ ls ∧ l = []) → list_items ls = []
  | [], _ => rfl
  | [l], h => by
    obtain ⟨l', hl', he⟩ := h
    rcases List.mem_singleton.mp hl' with rfl
    subst he
    rfl
  | l :: r :: t, h => by
    cases hl : l with
    | nil => simp [list_items]
    | cons x xs =>
      subst hl
      have hrt : ∃ l', l' ∈ r :: t ∧ l' = [] := by
        obtain ⟨l', hl', he⟩ := h
        rcases List.mem_cons.mp hl' with h0 | h0
        · subst he
          simp at h0
        · exact ⟨l', h0, he⟩
      have ih := list_items_nil_of_empty (r :: t) hrt
      simp [list_items, ih]

/-- `list_items` has the minimum length. -/
theorem list_items_length : ∀ (ls : List (List α)), ls ≠ [] →
    (list_items ls).length = minLens ls
  | [], h => absurd rfl h
  | [l], _ => by simp [list_items, minLens]
  | l :: r :: t, _ => by
    have ih := list_items_length (r :: t) (by simp)
    simp [list_items, minLens, List.length_zip, ih]

/-- Within the minimum length, the `s`-th zip item is the tuple of the
`s`-th elements. -/
theorem list_items_getElem? :
    ∀ (vecs : List (Vec α)), vecs ≠ [] → ∀ (s : Nat), s < remaining_len vecs →
      (list_items (vecs.map Vec.elems))[s]? = itemAt vecs s
  | [], h, _, _ => absurd rfl h
  | [v], _, s, hs => by
    simp only [remaining_len] at hs
    simp [list_items, itemAt, List.getElem?_map, List.getElem?_eq_getElem hs]
  | v :: w :: t, _, s, hs => by
    simp only [remaining_len] at hs
    have hs1 : s < v.elems.length := (Nat.lt_min.mp hs).1
    have hs2 : s < remaining_len (w :: t) := (Nat.lt_min.mp hs).2
    have ih := list_items_getElem? (w :: t) (by simp) s hs2
    obtain ⟨it, hit⟩ := itemAt_isSome s (w :: t)
      (fun u hu => Nat.lt_of_lt_of_le hs2 (remaining_len_le (w :: t) u hu))
    simp only [List.map_cons] at ih
    simp only [List.map_cons, list_items, List.getElem?_map, zip_getElem?,
      List.getElem?_eq_getElem hs1]
    rw [ih, hit]
    have hunf : itemAt (v :: w :: t) s =
        match v.elems[s]?, itemAt (w :: t) s with
        | some x, some xs => some (x :: xs)
        | _, _ => none := rfl
    rw [hunf, hit, List.getElem?_eq_getElem hs1]
    simp

/-- Full characterisation of a slow-path run with sufficient fuel: on a
first error at the `k`-th application it stops there having consumed
`k` elements of every input and dropping the `k - 1` collected outputs;
on success it collects everything and the exhausting zip step disposes
of the elements it read out. -/
theorem slow_go_char (f : List α → Except ε β) :
    ∀ (fuel : Nat) (ls : List (List α)), ls ≠ [] → minLens ls < fuel →
      (∀ e, collectResult f (list_items ls) = .error e →
        slow_go f fuel ls =
          ⟨.error e, ls.map (fun l => l.drop (applyCount f (list_items ls))),
            ls.map (fun _ => []), applyCount f (list_items ls), okVals f (list_items ls)⟩) ∧
      (∀ vals, collectResult f (list_items ls) = .ok vals →
        slow_go f fuel ls =
          ⟨.ok vals, (zip_next (ls.map (fun l => l.drop (minLens ls)))).2.1,
            (zip_next (ls.map (fun l => l.drop (minLens ls)))).2.2, minLens ls, []⟩)
  | 0, ls, hne, hfuel => absurd hfuel (by omega)
  | fuel + 1, ls, hne, hfuel => by
    by_cases hemp : ∃ l, l ∈ ls ∧ l = []
    · have hm0 : minLens ls = 0 := (minLens_zero_iff ls hne).mpr hemp
      have hitems : list_items ls = [] := list_items_nil_of_empty ls hemp
      have hz1 := (zip_next_none_parts ls hemp).1
      have hdrop : ls.map (fun l => l.drop (minLens ls)) = ls := by
        rw [hm0]
        have h0 : ∀ l : List α, l.drop 0 = l := fun l => List.drop_zero l
        rw [List.map_congr_left (fun l _ => h0 l)]
        exact List.map_id' ls
      constructor
      · intro e he
        rw [hitems] at he
        simp [collectResult] at he
      · intro vals hv
        rw [hitems] at hv
        simp only [collectResult, Except.ok.injEq] at hv
        subst hv
        rcases hzz : zip_next ls with ⟨z1, z2, z3⟩
        rw [hzz] at hz1
        simp only at hz1
        subst hz1
        rw [hdrop, hzz, hm0]
        simp [slow_go, hzz]
    · have hall : ∀ l, l ∈ ls → l ≠ [] := by
        intro l hl he
        exact hemp ⟨l, hl, he⟩
      obtain ⟨item, hz, hli⟩ := list_items_cons_of_ne ls hne hall
      have hmpos : 1 ≤ minLens ls := by
        rcases Nat.eq_zero_or_pos (minLens ls) with h0 | h0
        · exact absurd ((minLens_zero_iff ls hne).mp h0) hemp
        · exact h0
      have htne : ls.map List.tail ≠ [] := by
        cases ls with
        | nil => exact absurd rfl hne
        | cons a t => simp
      have htm : minLens (ls.map List.tail) = minLens ls - 1 := minLens_tail ls hne
      cases hfx : f item with
      | error e0 =>
        constructor
        · intro e he
          rw [hli] at he
          simp only [collectResult, hfx, Except.error.injEq] at he
          subst he
          have hk : applyCount f (list_items ls) = 1 := by
            rw [hli]
            simp [applyCount, hfx]
          have hov : okVals f (list_items ls) = [] := by
            rw [hli]
            simp [okVals, hfx]
          rw [hk, hov]
          have hd1 : ls.map (fun l => l.drop 1) = ls.map List.tail := by
            refine List.map_congr_left (fun l _ => ?_)
            exact List.drop_one l
          rw [hd1]
          have hex : (ls.map List.tail).map (fun _ => ([] : List α)) =
              ls.map (fun _ => []) := map_nil_fun _ _ (by simp)
          simp only [slow_go, hz, hfx, hex]
        · intro vals hv
          rw [hli] at hv
          simp [collectResult, hfx] at hv
      | ok v =>
        have ih := slow_go_char f fuel (ls.map List.tail) htne (by omega)
        constructor
        · intro e he
          rw [hli] at he
          simp only [collectResult, hfx] at he
          cases hcc : collectResult f (list_items (ls.map List.tail)) with
          | ok vs => rw [hcc] at he; simp at he
          | error e1 =>
            rw [hcc] at he
            simp only [Except.error.injEq] at he
            subst he
            have ihe := ih.1 e1 hcc
            have hk : applyCount f (list_items ls) =
                applyCount f (list_items (ls.map List.tail)) + 1 := by
              rw [hli]
              simp [applyCount, hfx]
            have hov : okVals f (list_items ls) =
                v :: okVals f (list_items (ls.map List.tail)) := by
              rw [hli]
              simp [okVals, hfx]
            rw [hk, hov, ← map_tail_drop_succ]
            have hex : (ls.map List.tail).map (fun _ => ([] : List α)) =
                ls.map (fun _ => []) := map_nil_fun _ _ (by simp)
            rw [← hex]
            simp only [slow_go, hz, hfx, ihe]
        · intro vals hv
          rw [hli] at hv
          simp only [collectResult, hfx] at hv
          cases hcc : collectResult f (list_items (ls.map List.tail)) with
          | error e1 => rw [hcc] at hv; simp at hv
          | ok vs =>
            rw [hcc] at hv
            simp only [Except.ok.injEq] at hv
            subst hv
            have iho := ih.2 vs hcc
            have hmm : (ls.map List.tail).map (fun l => l.drop (minLens (ls.map List.tail))) =
                ls.map (fun l => l.drop (minLens ls)) := by
              rw [htm]
              exact map_tail_drop (minLens ls) hmpos ls
            have hcount : minLens (ls.map List.tail) + 1 = minLens ls := by omega
            simp only [slow_go, hz, hfx, iho, hmm, hcount]

/-- `tuple_take_output` always claims some element of a nonempty input
list (with no layout match, release-mode Rust runs `take_output_impl`
at the untouched depth `0`, claiming the last element); when a match
exists, the claimed element matches and has maximal capacity, the
earliest winning ties. -/
theorem tuple_take_output_total (β : Type) (vl : Layout) (inputs : List (Input α))
    (hne : inputs ≠ []) :
    ∃ i di, inputs[i]? = some di ∧
      (tuple_take_output vl inputs : Option (Output β × List (Input α))) =
        some (⟨di.start, 0, di.cap, []⟩, inputs.set i { di with drop_alloc := false }) ∧
      ((∃ d, d ∈ inputs ∧ d.layout = vl) →
        di.layout = vl ∧
        (∀ (j : Nat) (dj : Input α), inputs[j]? = some dj → dj.layout = vl →
          dj.cap ≤ di.cap) ∧
        (∀ (j : Nat) (dj : Input α), j < i → inputs[j]? = some dj → dj.layout = vl →
          dj.cap < di.cap)) := by
  by_cases hm : ∃ d, d ∈ inputs ∧ d.layout = vl
  · obtain ⟨dm, hdm, hdl⟩ := hm
    obtain ⟨i, di, hget, hgl, heq, hub, hstrict⟩ :=
      tuple_take_output_eq β vl inputs dm hdm hdl
    exact ⟨i, di, hget, heq, fun _ => ⟨hgl, hub, hstrict⟩⟩
  · have hnall : ∀ d, d ∈ inputs → d.layout ≠ vl := by
      intro d hd hc
      exact hm ⟨d, hd, hc⟩
    cases inputs with
    | nil => exact absurd rfl hne
    | cons a rest =>
      cases rest with
      | nil =>
        exact ⟨0, a, rfl, rfl, fun hc => absurd hc hm⟩
      | cons b t =>
        have hmc := max_cap_none vl (b :: t) 0
          (fun d hd => hnall d (List.mem_cons_of_mem a hd))
        have hlt : (a :: b :: t).length - 1 < (a :: b :: t).length := by simp
        obtain ⟨di, hdi⟩ : ∃ di, (a :: b :: t)[(a :: b :: t).length - 1]? = some di :=
          ⟨_, List.getElem?_eq_getElem hlt⟩
        have hmc0 : max_cap vl (a :: b :: t) 0 = (none, 0) :=
          max_cap_none vl (a :: b :: t) 0 hnall
        have himpl := take_output_impl_at β (a :: b :: t) 0 ((a :: b :: t).length - 1) di
          (by simp) hdi
        refine ⟨(a :: b :: t).length - 1, di, hdi, ?_, fun hc => absurd hc hm⟩
        simp only [tuple_take_output, hmc0, himpl]

/-- After the donor at `i` is claimed, the `j`-th data segment is the
`j`-th vector decomposed, with ownership cleared exactly at `i`. -/
theorem set_claim_getElem? (vecs : List (Vec α)) (i j : Nat) (vD vj : Vec α)
    (hvD : vecs[i]? = some vD) (hvj : vecs[j]? = some vj) :
    ((vecs.map Input.fromVec).set i { Input.fromVec vD with drop_alloc := false })[j]? =
      some ⟨vj.addr, 0, vj.elems.length, vj.cap, if j = i then false else true, vj.layout,
        vj.elems⟩ := by
  rw [List.getElem?_set]
  by_cases hji : i = j
  · subst hji
    have hlt : i < (vecs.map Input.fromVec).length := by
      rw [List.length_map]
      exact (List.getElem?_eq_some.mp hvD).1
    rw [if_pos rfl, if_pos hlt]
    have hvv : vj = vD := by
      rw [hvD] at hvj
      exact (Option.some.injEq _ _ ▸ hvj).symm
    subst hvv
    simp [Input.fromVec]
  · rw [if_neg hji, List.getElem?_map, hvj]
    have hne : ¬ j = i := fun hc => hji hc.symm
    simp [Input.fromVec, hne]

/-- Lengths of the fast-path final input list. -/
theorem final_inputs_length (vecs : List (Vec α)) (i k : Nat) (vD : Vec α) :
    (((vecs.map Input.fromVec).set i { Input.fromVec vD with drop_alloc := false }).map
        (bumpN k)).length = vecs.length := by
  simp [List.length_map, List.length_set]

/-- The four ledger components determined by the fast-path final
inputs. -/
theorem final_inputs_ledger (vecs : List (Vec α)) (i k : Nat) (vD : Vec α)
    (hvD : vecs[i]? = some vD) :
    ((((vecs.map Input.fromVec).set i { Input.fromVec vD with drop_alloc := false }).map
        (bumpN k)).map (fun d => d.elems.take d.off) =
      vecs.map (fun v => v.elems.take k)) ∧
    ((((vecs.map Input.fromVec).set i { Input.fromVec vD with drop_alloc := false }).map
        (bumpN k)).map (fun _ => ([] : List α)) = vecs.map (fun _ => [])) ∧
    ((tuple_drop_rest (((vecs.map Input.fromVec).set i
        { Input.fromVec vD with drop_alloc := false }).map (bumpN k)) k).map Prod.fst =
      vecs.map (fun v => v.elems.drop k)) ∧
    (∀ j : Nat, j < vecs.length →
      ((tuple_drop_rest (((vecs.map Input.fromVec).set i
        { Input.fromVec vD with drop_alloc := false }).map (bumpN k)) k).map
          Prod.snd)[j]? = some (if j = i then false else true)) := by
  have hslen : ((vecs.map Input.fromVec).set i
      { Input.fromVec vD with drop_alloc := false }).length = vecs.length := by
    simp [List.length_map, List.length_set]
  refine ⟨?_, ?_, ?_, ?_⟩
  · refine List.ext_getElem? (fun j => ?_)
    simp only [List.getElem?_map]
    cases hvj : vecs[j]? with
    | none =>
      have hj : vecs.length ≤ j := List.getElem?_eq_none_iff.mp hvj
      rw [List.getElem?_eq_none (by omega : ((vecs.map Input.fromVec).set i
        { Input.fromVec vD with drop_alloc := false }).length ≤ j)]
      rfl
    | some vj =>
      rw [set_claim_getElem? vecs i j vD vj hvD hvj]
      simp [bumpN]
  · refine List.ext_getElem? (fun j => ?_)
    simp only [List.getElem?_map]
    cases hvj : vecs[j]? with
    | none =>
      have hj : vecs.length ≤ j := List.getElem?_eq_none_iff.mp hvj
      rw [List.getElem?_eq_none (by omega : ((vecs.map Input.fromVec).set i
        { Input.fromVec vD with drop_alloc := false }).length ≤ j)]
      rfl
    | some vj =>
      rw [set_claim_getElem? vecs i j vD vj hvD hvj]
      rfl
  · refine List.ext_getElem? (fun j => ?_)
    simp only [tuple_drop_rest, List.map_map, List.getElem?_map]
    cases hvj : vecs[j]? with
    | none =>
      have hj : vecs.length ≤ j := List.getElem?_eq_none_iff.mp hvj
      rw [List.getElem?_eq_none (by omega : ((vecs.map Input.fromVec).set i
        { Input.fromVec vD with drop_alloc := false }).length ≤ j)]
      rfl
    | some vj =>
      rw [set_claim_getElem? vecs i j vD vj hvD hvj]
      have hdr : ((vj.elems.drop (0 + k)).take (vj.elems.length - k)) = vj.elems.drop k := by
        have h1 : (vj.elems.drop k).length = vj.elems.length - k := List.length_drop ..
        rw [Nat.zero_add, ← h1]
        exact List.take_length _
      simp [Function.comp, elem_drop_rest, bumpN, hdr]
  · intro j hj
    obtain ⟨vj, hvj⟩ : ∃ vj, vecs[j]? = some vj := ⟨_, List.getElem?_eq_getElem hj⟩
    simp only [tuple_drop_rest, List.map_map, List.getElem?_map]
    rw [set_claim_getElem? vecs i j vD vj hvD hvj]
    rfl

/-- `impl Drop` with the output still owned frees the output allocation
and drops exactly the written outputs. -/
theorem zipDrop_free (out : Output β) (inp : List (Input α)) (ilen rem : Nat)
    (hk1 : 1 ≤ ilen - rem) (hbuf : out.buf.length = (ilen - rem) - 1) :
    zipDrop ⟨out, inp, ilen, rem, true⟩ =
      some ⟨(tuple_drop_rest inp (ilen - rem)).map Prod.fst,
        (tuple_drop_rest inp (ilen - rem)).map Prod.snd, out.buf, true⟩ := by
  have h0 : ¬ (ilen - rem = 0) := by omega
  have h1 : ¬ (out.buf.length + 1 < ilen - rem) := by omega
  have h2 : out.buf.take (ilen - rem - 1) = out.buf := by
    rw [← hbuf]
    exact List.take_length _
  simp [zipDrop, h0, h1, h2]

/-- `impl Drop` after ownership of the output was released only
disposes of the inputs. -/
theorem zipDrop_nofree (out : Output β) (inp : List (Input α)) (ilen rem : Nat) :
    zipDrop ⟨out, inp, ilen, rem, false⟩ =
      some ⟨(tuple_drop_rest inp (ilen - rem)).map Prod.fst,
        (tuple_drop_rest inp (ilen - rem)).map Prod.snd, [], false⟩ := by
  simp [zipDrop]

/-- `try_into_vec` when the `k`-th application is the first to fail:
the `?` operator surfaces the error, the `Drop` run disposes of the
`k - 1` written outputs, frees the output allocation, and runs
`drop_rest` on every input at `k`. -/
theorem try_into_vec_err (f : List α → Except ε β) (inp : List (Input α)) (sa ca m : Nat)
    (items : List (List α)) (e : ε)
    (hI : itemsN m inp = some items) (hC : collectResult f items = .error e)
    (hkm : applyCount f items ≤ m) :
    try_into_vec f ⟨⟨sa, 0, ca, []⟩, inp, m, m, true⟩ =
      some ⟨.error e, inp.map (bumpN (applyCount f items)), applyCount f items,
        ⟨(tuple_drop_rest (inp.map (bumpN (applyCount f items)))
            (applyCount f items)).map Prod.fst,
          (tuple_drop_rest (inp.map (bumpN (applyCount f items)))
            (applyCount f items)).map Prod.snd,
          okVals f items, true⟩⟩ := by
  obtain ⟨hoklen, _⟩ := okVals_of_error f items e hC
  have hk1 : 1 ≤ applyCount f items := applyCount_pos_of_error f items e hC
  have hloop := zipLoop_err f m inp ⟨sa, 0, ca, []⟩ items e hI hC
  have hfill : m - (m - applyCount f items) = applyCount f items := Nat.sub_sub_self hkm
  have hbuf : (([] : List β) ++ okVals f items).length = (m - (m - applyCount f items)) - 1 := by
    rw [hfill]
    simpa using hoklen
  have hdrop := zipDrop_free ⟨sa, 0 + (applyCount f items - 1), ca, [] ++ okVals f items⟩
    (inp.map (bumpN (applyCount f items))) m (m - applyCount f items)
    (by omega) hbuf
  rw [hfill] at hdrop
  simp only [List.nil_append] at hdrop
  simp only [try_into_vec, hloop, hfill, List.nil_append, hdrop]

/-- `try_into_vec` when every application succeeds: the output handle is
reassembled into the result vector reusing the output allocation, and
the closing `Drop` run disposes of every input's unread tail without
touching the outputs. -/
theorem try_into_vec_ok (f : List α → Except ε β) (inp : List (Input α)) (sa ca m : Nat)
    (items : List (List α)) (vals : List β)
    (hI : itemsN m inp = some items) (hC : collectResult f items = .ok vals)
    (hlen : vals.length = m) :
    try_into_vec f ⟨⟨sa, 0, ca, []⟩, inp, m, m, true⟩ =
      some ⟨.ok ⟨.reused sa ca, vals⟩, inp.map (bumpN m), m,
        ⟨(tuple_drop_rest (inp.map (bumpN m)) m).map Prod.fst,
          (tuple_drop_rest (inp.map (bumpN m)) m).map Prod.snd, [], false⟩⟩ := by
  have hloop := zipLoop_ok f m inp ⟨sa, 0, ca, []⟩ items vals hI hC
  have hdrop := zipDrop_nofree (⟨sa, 0 + m, ca, [] ++ vals⟩ : Output β) (inp.map (bumpN m)) m 0
  have hblen : (([] : List β) ++ vals).length = m := by simpa using hlen
  simp only [Nat.sub_zero, List.nil_append] at hdrop
  simp only [try_into_vec, hloop, List.nil_append, Nat.sub_zero, if_pos hblen, hdrop]
  rw [if_pos hlen]

/-- Master characterisation of a fast-path run on nonempty inputs: some
input `i` is claimed as the donor; the transform is applied
`applyCount` many times; the first `fApplied` elements of every input
are handed to the transform, the rest dropped exactly once; every
non-donor allocation is freed; on success the result reuses the
donor's address and capacity, on an error the written outputs are
dropped and the output allocation freed; and when some input matches
the output layout, the donor matches and has maximal capacity with the
earliest winning ties. -/
theorem fast_run (vl : Layout) (vecs : List (Vec α)) (f : List α → Except ε β)
    (hne : vecs ≠ []) :
    ∃ (i : Nat) (vD : Vec α) (res : Except ε (RVec β)) (lg : Ledger α β),
      vecs[i]? = some vD ∧
      fast_path vl vecs f = some (res, lg) ∧
      lg.fApplied = applyCount f (list_items (vecs.map Vec.elems)) ∧
      lg.handedToF = vecs.map (fun v => v.elems.take lg.fApplied) ∧
      lg.droppedExtra = vecs.map (fun _ => ([] : List α)) ∧
      lg.droppedRest = vecs.map (fun v => v.elems.drop lg.fApplied) ∧
      (∀ j : Nat, j < vecs.length →
        lg.inFreed[j]? = some (if j = i then false else true)) ∧
      (∀ vals, collectResult f (list_items (vecs.map Vec.elems)) = .ok vals →
        res = .ok ⟨.reused vD.addr vD.cap, vals⟩ ∧ lg.outDropped = [] ∧
        lg.outAllocFreed = false) ∧
      (∀ e, collectResult f (list_items (vecs.map Vec.elems)) = .error e →
        res = .error e ∧ lg.outDropped = okVals f (list_items (vecs.map Vec.elems)) ∧
        lg.outAllocFreed = true) ∧
      ((∃ v, v ∈ vecs ∧ v.layout = vl) →
        vD.layout = vl ∧
        (∀ (j : Nat) (vj : Vec α), vecs[j]? = some vj → vj.layout = vl →
          vj.cap ≤ vD.cap) ∧
        (∀ (j : Nat) (vj : Vec α), j < i → vecs[j]? = some vj → vj.layout = vl →
          vj.cap < vD.cap)) := by
  have hinne : vecs.map Input.fromVec ≠ [] := by
    cases vecs with
    | nil => exact absurd rfl hne
    | cons a t => simp
  obtain ⟨i, di, hget, htake, hmatch⟩ :=
    tuple_take_output_total β vl (vecs.map Input.fromVec) hinne
  obtain ⟨vD, hvD, hdi⟩ : ∃ vD, vecs[i]? = some vD ∧ di = Input.fromVec vD := by
    rw [List.getElem?_map] at hget
    cases hv : vecs[i]? with
    | none => rw [hv] at hget; simp at hget
    | some v =>
      rw [hv] at hget
      simp only [Option.map_some'] at hget
      exact ⟨v, rfl, by injection hget with h; exact h.symm⟩
  subst hdi
  -- the donor-optimality facts, transported to the vectors
  have hopt : (∃ v, v ∈ vecs ∧ v.layout = vl) →
      vD.layout = vl ∧
      (∀ (j : Nat) (vj : Vec α), vecs[j]? = some vj → vj.layout = vl →
        vj.cap ≤ vD.cap) ∧
      (∀ (j : Nat) (vj : Vec α), j < i → vecs[j]? = some vj → vj.layout = vl →
        vj.cap < vD.cap) := by
    intro hex
    obtain ⟨v0, hv0, hl0⟩ := hex
    obtain ⟨hgl, hub, hstrict⟩ := hmatch ⟨Input.fromVec v0, List.mem_map_of_mem _ hv0, hl0⟩
    refine ⟨hgl, ?_, ?_⟩
    · intro j vj hj hlj
      exact hub j (Input.fromVec vj) (by rw [List.getElem?_map, hj]; rfl) hlj
    · intro j vj hjlt hj hlj
      exact hstrict j (Input.fromVec vj) hjlt (by rw [List.getElem?_map, hj]; rfl) hlj
  -- the items of the walk
  have hmle : ∀ v, v ∈ vecs → 0 + remaining_len vecs ≤ v.elems.length := fun v hv => by
    have := remaining_len_le vecs v hv
    omega
  obtain ⟨items0, hI0, hlen0, hpt0⟩ := itemsN_fromVec (remaining_len vecs) 0 vecs hmle
  have hlsne : vecs.map Vec.elems ≠ [] := by
    cases vecs with
    | nil => exact absurd rfl hne
    | cons a t => simp
  have hminl : (list_items (vecs.map Vec.elems)).length = remaining_len vecs := by
    rw [list_items_length (vecs.map Vec.elems) hlsne, ← remaining_len_eq_minLens]
  have hitems : items0 = list_items (vecs.map Vec.elems) := by
    refine List.ext_getElem? (fun s => ?_)
    by_cases hs : s < remaining_len vecs
    · rw [list_items_getElem? vecs hne s hs]
      have hp := hpt0 s (by omega)
      simp only [Nat.zero_add] at hp
      exact hp
    · rw [List.getElem?_eq_none (by omega), List.getElem?_eq_none (by omega)]
  have hI2 : itemsN (remaining_len vecs)
      ((vecs.map Input.fromVec).set i { Input.fromVec vD with drop_alloc := false }) =
      some items0 := by
    rw [itemsN_set_claim (remaining_len vecs) (vecs.map Input.fromVec) i _ hget]
    rw [← map_bumpN_zero (vecs.map Input.fromVec)]
    exact hI0
  rw [hitems] at hI2
  cases hcoll : collectResult f (list_items (vecs.map Vec.elems)) with
  | error e =>
    have hk1 : 1 ≤ applyCount f (list_items (vecs.map Vec.elems)) :=
      applyCount_pos_of_error f _ e hcoll
    have hkm : applyCount f (list_items (vecs.map Vec.elems)) ≤ remaining_len vecs := by
      have := applyCount_le_length f (list_items (vecs.map Vec.elems))
      omega
    have htiv := try_into_vec_err f
      ((vecs.map Input.fromVec).set i { Input.fromVec vD with drop_alloc := false })
      (Input.fromVec vD).start (Input.fromVec vD).cap (remaining_len vecs)
      (list_items (vecs.map Vec.elems)) e hI2 hcoll hkm
    have hfp : fast_path vl vecs f =
        some (.error e, fastLedger ⟨.error e,
          (((vecs.map Input.fromVec).set i
            { Input.fromVec vD with drop_alloc := false }).map
              (bumpN (applyCount f (list_items (vecs.map Vec.elems))))),
          applyCount f (list_items (vecs.map Vec.elems)),
          ⟨(tuple_drop_rest (((vecs.map Input.fromVec).set i
              { Input.fromVec vD with drop_alloc := false }).map
                (bumpN (applyCount f (list_items (vecs.map Vec.elems)))))
              (applyCount f (list_items (vecs.map Vec.elems)))).map Prod.fst,
            (tuple_drop_rest (((vecs.map Input.fromVec).set i
              { Input.fromVec vD with drop_alloc := false }).map
                (bumpN (applyCount f (list_items (vecs.map Vec.elems)))))
              (applyCount f (list_items (vecs.map Vec.elems)))).map Prod.snd,
            okVals f (list_items (vecs.map Vec.elems)), true⟩⟩) := by
      simp only [fast_path, htake, htiv]
    obtain ⟨hh, he2, hr, hifr⟩ := final_inputs_ledger vecs i
      (applyCount f (list_items (vecs.map Vec.elems))) vD hvD
    refine ⟨i, vD, .error e, _, hvD, hfp, rfl, ?_, ?_, ?_, ?_, ?_, ?_, hopt⟩
    · simpa [fastLedger] using hh
    · simpa [fastLedger] using he2
    · simpa [fastLedger] using hr
    · intro j hj
      simpa [fastLedger] using hifr j hj
    · intro vals hv
      simp at hv
    · intro e0 he0
      injection he0 with he0
      subst he0
      exact ⟨rfl, rfl, rfl⟩
  | ok vals =>
    obtain ⟨hvlen, _⟩ := collectResult_ok_getElem? f _ vals hcoll
    have hkap := applyCount_of_ok f _ vals hcoll
    have htiv := try_into_vec_ok f
      ((vecs.map Input.fromVec).set i { Input.fromVec vD with drop_alloc := false })
      (Input.fromVec vD).start (Input.fromVec vD).cap (remaining_len vecs)
      (list_items (vecs.map Vec.elems)) vals hI2 hcoll (by omega)
    have hfp : fast_path vl vecs f =
        some (.ok ⟨.reused (Input.fromVec vD).start (Input.fromVec vD).cap, vals⟩,
          fastLedger ⟨(Except.ok ⟨.reused (Input.fromVec vD).start (Input.fromVec vD).cap,
              vals⟩ : Except ε (RVec β)),
          (((vecs.map Input.fromVec).set i
            { Input.fromVec vD with drop_alloc := false }).map (bumpN (remaining_len vecs))),
          remaining_len vecs,
          ⟨(tuple_drop_rest (((vecs.map Input.fromVec).set i
              { Input.fromVec vD with drop_alloc := false }).map
                (bumpN (remaining_len vecs))) (remaining_len vecs)).map Prod.fst,
            (tuple_drop_rest (((vecs.map Input.fromVec).set i
              { Input.fromVec vD with drop_alloc := false }).map
                (bumpN (remaining_len vecs))) (remaining_len vecs)).map Prod.snd,
            [], false⟩⟩) := by
      simp only [fast_path, htake, htiv]
    obtain ⟨hh, he2, hr, hifr⟩ := final_inputs_ledger vecs i (remaining_len vecs) vD hvD
    refine ⟨i, vD, .ok ⟨.reused vD.addr vD.cap, vals⟩, _, hvD, hfp, ?_, ?_, ?_, ?_, ?_,
      ?_, ?_, hopt⟩
    · simp [fastLedger, hkap, hminl]
    · have : applyCount f (list_items (vecs.map Vec.elems)) = remaining_len vecs := by
        omega
      simpa [fastLedger, this] using hh
    · simpa [fastLedger] using he2
    · have : applyCount f (list_items (vecs.map Vec.elems)) = remaining_len vecs := by
        omega
      simpa [fastLedger, this] using hr
    · intro j hj
      simpa [fastLedger] using hifr j hj
    · intro vals0 hv0
      injection hv0 with hv0
      subst hv0
      exact ⟨rfl, rfl, rfl⟩
    · intro e0 he0
      simp at he0

/-- Master characterisation of a slow-path run on nonempty inputs: the
transform is applied `applyCount` many times to the zip items; the
first `fApplied` elements of every input are handed to the transform
and every input allocation is freed by its iterator; on an error the
partially collected outputs are dropped and everything unconsumed is
dropped with the iterators; on success everything beyond the minimum
length is dropped exactly once, partly by the exhausting zip step. -/
theorem slow_run (vecs : List (Vec α)) (f : List α → Except ε β) (hne : vecs ≠ []) :
    ∃ (res : Except ε (RVec β)) (lg : Ledger α β),
      slow_path vecs f = (res, lg) ∧
      lg.fApplied = applyCount f (list_items (vecs.map Vec.elems)) ∧
      lg.handedToF = vecs.map (fun v => v.elems.take lg.fApplied) ∧
      lg.inFreed = vecs.map (fun _ => true) ∧
      (∀ e, collectResult f (list_items (vecs.map Vec.elems)) = .error e →
        res = .error e ∧
        lg.droppedExtra = vecs.map (fun _ => []) ∧
        lg.droppedRest = vecs.map (fun v => v.elems.drop lg.fApplied) ∧
        lg.outDropped = okVals f (list_items (vecs.map Vec.elems)) ∧
        lg.outAllocFreed = true) ∧
      (∀ vals, collectResult f (list_items (vecs.map Vec.elems)) = .ok vals →
        res = .ok ⟨.fresh, vals⟩ ∧
        lg.outDropped = [] ∧
        lg.outAllocFreed = false ∧
        (∀ (j : Nat) (vj : Vec α), vecs[j]? = some vj →
          ∃ ej rj, lg.droppedExtra[j]? = some ej ∧ lg.droppedRest[j]? = some rj ∧
            ej ++ rj = vj.elems.drop (remaining_len vecs))) := by
  have hlsne : vecs.map Vec.elems ≠ [] := by
    cases vecs with
    | nil => exact absurd rfl hne
    | cons a t => simp
  have hmin : minLens (vecs.map Vec.elems) = remaining_len vecs :=
    (remaining_len_eq_minLens vecs).symm
  have hchar := slow_go_char f (remaining_len vecs + 1) (vecs.map Vec.elems) hlsne
    (by omega)
  have hminl : (list_items (vecs.map Vec.elems)).length = remaining_len vecs := by
    rw [list_items_length (vecs.map Vec.elems) hlsne, hmin]
  cases hcoll : collectResult f (list_items (vecs.map Vec.elems)) with
  | error e =>
    have hso := hchar.1 e hcoll
    refine ⟨.error e, slowLedger (vecs.map Vec.elems)
        ⟨.error e, (vecs.map Vec.elems).map
            (fun l => l.drop (applyCount f (list_items (vecs.map Vec.elems)))),
          (vecs.map Vec.elems).map (fun _ => []),
          applyCount f (list_items (vecs.map Vec.elems)),
          okVals f (list_items (vecs.map Vec.elems))⟩, ?_, ?_, ?_, ?_, ?_, ?_⟩
    · simp only [slow_path, hso]
    · simp [slowLedger]
    · simp only [slowLedger, List.map_map]
      rfl
    · simp only [slowLedger, List.map_map]
      rfl
    · intro e0 he0
      injection he0 with he0
      subst he0
      refine ⟨rfl, ?_, ?_, rfl, rfl⟩
      · simp only [slow_path, hso, slowLedger, List.map_map]
        rfl
      · simp only [slow_path, hso, slowLedger, List.map_map]
        rfl
    · intro vals hv
      simp at hv
  | ok vals =>
    have hso := hchar.2 vals hcoll
    have hkap : applyCount f (list_items (vecs.map Vec.elems)) = remaining_len vecs := by
      rw [applyCount_of_ok f _ vals hcoll, hminl]
    -- the exhausting zip step: some input has been fully consumed
    obtain ⟨v0, hv0, he0⟩ := remaining_len_mem vecs hne
    have hmem0 : (v0.elems.drop (remaining_len vecs)) ∈
        (vecs.map Vec.elems).map (fun l => l.drop (minLens (vecs.map Vec.elems))) := by
      rw [hmin, List.map_map]
      exact List.mem_map_of_mem _ hv0
    have hempty0 : v0.elems.drop (remaining_len vecs) = [] := by
      rw [he0]
      exact List.drop_length _
    have hparts := zip_next_none_parts
      ((vecs.map Vec.elems).map (fun l => l.drop (minLens (vecs.map Vec.elems))))
      ⟨v0.elems.drop (remaining_len vecs), hmem0, hempty0⟩
    refine ⟨.ok ⟨.fresh, vals⟩, slowLedger (vecs.map Vec.elems)
        (⟨.ok vals, (zip_next ((vecs.map Vec.elems).map
            (fun l => l.drop (minLens (vecs.map Vec.elems))))).2.1,
          (zip_next ((vecs.map Vec.elems).map
            (fun l => l.drop (minLens (vecs.map Vec.elems))))).2.2,
          minLens (vecs.map Vec.elems), []⟩ : SlowOut ε α β), ?_, ?_, ?_, ?_, ?_, ?_⟩
    · simp only [slow_path, hso]
    · simp [slowLedger, hso, hkap, hmin]
    · simp only [slowLedger, List.map_map]
      rfl
    · simp only [slowLedger, List.map_map]
      rfl
    · intro e0 he0
      simp at he0
    · intro vals0 hv0'
      injection hv0' with hv0'
      subst hv0'
      refine ⟨rfl, rfl, rfl, ?_⟩
      intro j vj hvj
      have hlj : ((vecs.map Vec.elems).map
          (fun l => l.drop (minLens (vecs.map Vec.elems))))[j]? =
          some (vj.elems.drop (remaining_len vecs)) := by
        rw [List.map_map, List.getElem?_map, hvj, hmin]
        rfl
      obtain ⟨rj, ej, hr, he2, hc⟩ := hparts.2 j _ hlj
      exact ⟨ej, rj, by simpa [slowLedger, hso] using he2, by simpa [slowLedger, hso] using hr,
        hc⟩

/-- A first failure at the `k`-th position makes the traversal
short-circuit with that error after exactly `k` applications. -/
theorem collectResult_error_of_first (f : List α → Except ε β) :
    ∀ (items : List (List α)) (k : Nat) (e : ε), 1 ≤ k → k ≤ items.length →
      (∀ (j : Nat), j + 1 < k → ∃ item y, items[j]? = some item ∧ f item = .ok y) →
      (∃ item, items[k - 1]? = some item ∧ f item = .error e) →
      collectResult f items = .error e ∧ applyCount f items = k
  | [], k, e, hk1, hkm, _, _ => by simp at hkm; omega
  | x :: xs, k, e, hk1, hkm, hpre, herr => by
    rcases Nat.lt_or_ge 1 k with hk | hk
    · -- k ≥ 2: the head succeeds
      obtain ⟨item0, y, h0, hy⟩ := hpre 0 (by omega)
      simp only [List.getElem?_cons_zero, Option.some.injEq] at h0
      subst h0
      obtain ⟨k', rfl⟩ : ∃ k', k = k' + 1 := ⟨k - 1, by omega⟩
      have hk1' : 1 ≤ k' := by omega
      have hkm' : k' ≤ xs.length := by simp at hkm; omega
      have hpre' : ∀ (j : Nat), j + 1 < k' → ∃ item y, xs[j]? = some item ∧ f item = .ok y := by
        intro j hj
        obtain ⟨item, y2, hji, hjy⟩ := hpre (j + 1) (by omega)
        rw [List.getElem?_cons_succ] at hji
        exact ⟨item, y2, hji, hjy⟩
      have herr' : ∃ item, xs[k' - 1]? = some item ∧ f item = .error e := by
        obtain ⟨item, hki, hke⟩ := herr
        refine ⟨item, ?_, hke⟩
        have hrw : k' + 1 - 1 = (k' - 1) + 1 := by omega
        rw [hrw, List.getElem?_cons_succ] at hki
        exact hki
      obtain ⟨hcc, hac⟩ := collectResult_error_of_first f xs k' e hk1' hkm' hpre' herr'
      constructor
      · simp [collectResult, hy, hcc]
      · simp [applyCount, hy, hac]
    · -- k = 1: the head fails
      have hk0 : k = 1 := by omega
      subst hk0
      obtain ⟨item, hki, hke⟩ := herr
      simp only [Nat.sub_self, List.getElem?_cons_zero, Option.some.injEq] at hki
      subst hki
      exact ⟨by simp [collectResult, hke], by simp [applyCount, hke]⟩

/-- A traversal whose applications all succeed collects a value. -/
theorem collectResult_ok_of_all (f : List α → Except ε β) :
    ∀ (items : List (List α)),
      (∀ (s : Nat) (item : List α), items[s]? = some item → ∃ y, f item = .ok y) →
      ∃ vals, collectResult f items = .ok vals
  | [], _ => ⟨[], rfl⟩
  | x :: xs, h => by
    obtain ⟨y, hy⟩ := h 0 x (by simp)
    obtain ⟨vals, hv⟩ := collectResult_ok_of_all f xs
      (fun s item hs => h (s + 1) item (by simpa using hs))
    exact ⟨y :: vals, by simp [collectResult, hy, hv]⟩

/-- The head-extracting transform collects a singleton-wrapped list
back to itself: `map(seq, identity)` at the item level. -/
theorem collectResult_map_single (l : List α) :
    collectResult idTransform (l.map (fun x => [x])) = .ok l := by
  induction l with
  | nil => rfl
  | cons x t ih => simp [collectResult, idTransform, ih]

/-- Dropping the first `k` elements of every input disposes of all but
`k` elements per input: the drop-count identity. -/
theorem sum_drop_lengths (k : Nat) :
    ∀ (vecs : List (Vec α)), (∀ v, v ∈ vecs → k ≤ v.elems.length) →
      ((vecs.map (fun v => v.elems.drop k)).map List.length).sum + k * vecs.length =
        (vecs.map (fun v => v.elems.length)).sum
  | [], _ => by simp
  | v :: t, h => by
    have ih := sum_drop_lengths k t (fun u hu => h u (List.mem_cons_of_mem _ hu))
    have hv := h v (List.mem_cons_self _ _)
    simp only [List.map_cons, List.sum_cons, List.length_cons, List.length_drop,
      Nat.mul_succ]
    omega

/-- Every input's disposal appears in the instrumented `drop_rest` run,
whatever diverges: the `defer!` guards keep the tail disposals alive. -/
theorem drop_rest_diverge_complete :
    ∀ (dv : List Bool) (inputs : List (Input α)) (len : Nat),
      (drop_rest_diverge dv inputs len).1 = tuple_drop_rest inputs len
  | _, [], _ => rfl
  | _, [_], _ => rfl
  | dv, a :: b :: t, len => by
    have ih := drop_rest_diverge_complete dv.tail (b :: t) len
    simp only [drop_rest_diverge, tuple_drop_rest, List.map_cons] at ih ⊢
    rw [ih]

/-- A nonempty list of vectors decomposes into a nonempty element-list. -/
theorem map_elems_ne (vecs : List (Vec α)) (hne : vecs ≠ []) : vecs.map Vec.elems ≠ [] := by
  cases vecs with
  | nil => exact absurd rfl hne
  | cons a t => simp

/-- The zip item list has the minimum length. -/
theorem items_length_eq (vecs : List (Vec α)) (hne : vecs ≠ []) :
    (list_items (vecs.map Vec.elems)).length = remaining_len vecs := by
  rw [list_items_length (vecs.map Vec.elems) (map_elems_ne vecs hne),
    ← remaining_len_eq_minLens]

/-- Positional first-error hypotheses over `itemAt` transfer to the zip
item list. -/
theorem first_error_items (vecs : List (Vec α)) (f : List α → Except ε β) (k : Nat) (e : ε)
    (hne : vecs ≠ []) (hk1 : 1 ≤ k) (hkm : k ≤ remaining_len vecs)
    (hpre : ∀ (j : Nat), j + 1 < k → ∃ item y, itemAt vecs j = some item ∧ f item = .ok y)
    (herr : ∃ item, itemAt vecs (k - 1) = some item ∧ f item = .error e) :
    collectResult f (list_items (vecs.map Vec.elems)) = .error e ∧
      applyCount f (list_items (vecs.map Vec.elems)) = k := by
  have hminl := items_length_eq vecs hne
  refine collectResult_error_of_first f _ k e hk1 (by omega) ?_ ?_
  · intro j hj
    obtain ⟨item, y, hji, hjy⟩ := hpre j hj
    refine ⟨item, y, ?_, hjy⟩
    rw [list_items_getElem? vecs hne j (by omega)]
    exact hji
  · obtain ⟨item, hki, hke⟩ := herr
    refine ⟨item, ?_, hke⟩
    rw [list_items_getElem? vecs hne (k - 1) (by omega)]
    exact hki

/-- The collected values, pointwise over the input vectors. -/
theorem ok_values_pointwise (vecs : List (Vec α)) (f : List α → Except ε β) (vals : List β)
    (hne : vecs ≠ [])
    (hcoll : collectResult f (list_items (vecs.map Vec.elems)) = .ok vals) :
    vals.length = remaining_len vecs ∧
      ∀ (i : Nat), i < remaining_len vecs →
        ∃ item y, itemAt vecs i = some item ∧ f item = .ok y ∧ vals[i]? = some y := by
  obtain ⟨hvlen, hpt⟩ := collectResult_ok_getElem? f _ vals hcoll
  have hminl := items_length_eq vecs hne
  refine ⟨by omega, ?_⟩
  intro i hi
  obtain ⟨item, hitem⟩ := itemAt_isSome i vecs
    (fun v hv => Nat.lt_of_lt_of_le hi (remaining_len_le vecs v hv))
  have hii : (list_items (vecs.map Vec.elems))[i]? = some item := by
    rw [list_items_getElem? vecs hne i hi]
    exact hitem
  obtain ⟨y, hy, hv⟩ := hpt i item hii
  exact ⟨item, y, hitem, hy, hv⟩

/-- C1: for every tuple of input vectors and every transform, whenever
`try_zip_with` (and hence `zip_with`, its infallible wrapper) succeeds,
the result vector has exactly one element per index below the minimum
input length, and its `i`-th element is the transform applied to the
tuple of the `i`-th elements of the inputs — the lock-step walk reads
one element from every input, applies the transform and writes the
result to the next output slot, in increasing index order. -/
theorem c1_lockstep_values (vl : Layout) (vecs : List (Vec α)) (f : List α → Except ε β)
    (res : RVec β) (lg : Ledger α β) (hne : vecs ≠ [])
    (h : try_zip_with vl vecs f = some (.ok res, lg)) :
    res.elems.length = remaining_len vecs ∧
    ∀ (i : Nat), i < remaining_len vecs →
      ∃ item y, itemAt vecs i = some item ∧ f item = .ok y ∧ res.elems[i]? = some y := by
  by_cases hcl : check_layout vl vecs = true
  · obtain ⟨i0, vD, res0, lg0, hvD, hfp, hfa, hh, hex, hr, hif, hok, herr, hopt⟩ :=
      fast_run vl vecs f hne
    have htz : try_zip_with vl vecs f = some (res0, lg0) := by
      rw [try_zip_with, if_pos hcl]
      exact hfp
    rw [htz] at h
    have hpair := Option.some.inj h
    have hres : res0 = .ok res := congrArg Prod.fst hpair
    cases hcoll : collectResult f (list_items (vecs.map Vec.elems)) with
    | error e =>
      obtain ⟨hr0, _, _⟩ := herr e hcoll
      rw [hres] at hr0
      simp at hr0
    | ok vals =>
      obtain ⟨hr0, _, _⟩ := hok vals hcoll
      rw [hres] at hr0
      injection hr0 with hr0
      obtain ⟨hvlen, hpt⟩ := ok_values_pointwise vecs f vals hne hcoll
      rw [hr0]
      exact ⟨by simpa using hvlen, fun i hi => by simpa using hpt i hi⟩
  · obtain ⟨res0, lg0, hsp, hfa, hh, hif, herr, hok⟩ := slow_run vecs f hne
    have htz : try_zip_with vl vecs f = some (res0, lg0) := by
      rw [try_zip_with, if_neg hcl, hsp]
    rw [htz] at h
    have hpair := Option.some.inj h
    have hres : res0 = .ok res := congrArg Prod.fst hpair
    cases hcoll : collectResult f (list_items (vecs.map Vec.elems)) with
    | error e =>
      obtain ⟨hr0, _⟩ := herr e hcoll
      rw [hres] at hr0
      simp at hr0
    | ok vals =>
      obtain ⟨hr0, _, _, _⟩ := hok vals hcoll
      rw [hres] at hr0
      injection hr0 with hr0
      obtain ⟨hvlen, hpt⟩ := ok_values_pointwise vecs f vals hne hcoll
      rw [hr0]
      exact ⟨by simpa using hvlen, fun i hi => by simpa using hpt i hi⟩

/-- C2: when the transform's first error is at the `k`-th application,
`try_zip_with` returns exactly that error; the `k - 1` produced outputs
are dropped exactly once (they are listed once each, in order, in the
ledger), every input element at index `≥ k` is dropped exactly once,
the elements at indices `< k` were handed to the transform, and the
disposals across all inputs account for every original element: the
dropped tails plus the `k` elements per input consumed by the
transform sum to the original element count — no leak, no double
drop. -/
theorem c2_error_accounting (vl : Layout) (vecs : List (Vec α)) (f : List α → Except ε β)
    (k : Nat) (e : ε) (hne : vecs ≠ []) (hk1 : 1 ≤ k) (hkm : k ≤ remaining_len vecs)
    (hpre : ∀ (j : Nat), j + 1 < k → ∃ item y, itemAt vecs j = some item ∧ f item = .ok y)
    (herr : ∃ item, itemAt vecs (k - 1) = some item ∧ f item = .error e) :
    ∃ lg : Ledger α β, try_zip_with vl vecs f = some (.error e, lg) ∧
      lg.fApplied = k ∧
      lg.outDropped.length = k - 1 ∧
      (∀ (j : Nat), j + 1 < k →
        ∃ item y, itemAt vecs j = some item ∧ f item = .ok y ∧
          lg.outDropped[j]? = some y) ∧
      lg.handedToF = vecs.map (fun v => v.elems.take k) ∧
      lg.droppedExtra = vecs.map (fun _ => []) ∧
      lg.droppedRest = vecs.map (fun v => v.elems.drop k) ∧
      (lg.droppedRest.map List.length).sum + k * vecs.length =
        (vecs.map (fun v => v.elems.length)).sum ∧
      lg.outAllocFreed = true := by
  obtain ⟨hcoll, hac⟩ := first_error_items vecs f k e hne hk1 hkm hpre herr
  obtain ⟨hoklen, hokpt⟩ := okVals_of_error f _ e hcoll
  have hsum : ((vecs.map (fun v => v.elems.drop k)).map List.length).sum + k * vecs.length =
      (vecs.map (fun v => v.elems.length)).sum :=
    sum_drop_lengths k vecs
      (fun v hv => Nat.le_trans hkm (remaining_len_le vecs v hv))
  have houtpt : ∀ (j : Nat), j + 1 < k →
      ∃ item y, itemAt vecs j = some item ∧ f item = .ok y ∧
        (okVals f (list_items (vecs.map Vec.elems)))[j]? = some y := by
    intro j hj
    obtain ⟨item, y, hji, hjy⟩ := hpre j hj
    have hii : (list_items (vecs.map Vec.elems))[j]? = some item := by
      rw [list_items_getElem? vecs hne j (by omega)]
      exact hji
    obtain ⟨y2, hy2, hov⟩ := hokpt j item (by omega) hii
    rw [hjy] at hy2
    injection hy2 with hy2
    subst hy2
    exact ⟨item, y, hji, hjy, hov⟩
  by_cases hcl : check_layout vl vecs = true
  · obtain ⟨i0, vD, res0, lg0, hvD, hfp, hfa, hh, hex, hr, hif, hok, herr2, hopt⟩ :=
      fast_run vl vecs f hne
    obtain ⟨hr0, hod, haf⟩ := herr2 e hcoll
    subst hr0
    refine ⟨lg0, ?_, by omega, ?_, ?_, ?_, hex, ?_, ?_, haf⟩
    · rw [try_zip_with, if_pos hcl]
      exact hfp
    · rw [hod, hoklen]
      omega
    · intro j hj
      rw [hod]
      exact houtpt j hj
    · rw [hh, hfa, hac]
    · rw [hr, hfa, hac]
    · rw [hr, hfa, hac]
      exact hsum
  · obtain ⟨res0, lg0, hsp, hfa, hh, hif, herr2, hok⟩ := slow_run vecs f hne
    obtain ⟨hr0, hex, hr, hod, haf⟩ := herr2 e hcoll
    subst hr0
    refine ⟨lg0, ?_, by omega, ?_, ?_, ?_, hex, ?_, ?_, haf⟩
    · rw [try_zip_with, if_neg hcl, hsp]
    · rw [hod, hoklen]
      omega
    · intro j hj
      rw [hod]
      exact houtpt j hj
    · rw [hh, hfa, hac]
    · rw [hr, hfa, hac]
    · rw [hr, hfa, hac]
      exact hsum

/-- C3: on the fast path the aggregate remaining length is the minimum
of all input lengths (a lower bound attained by some input, computed by
the recursive `remaining_len`), the successful result has exactly that
length, and every input element beyond the minimum is never read —
everything handed to the transform comes from indices below the
minimum, nothing else is read out — and is dropped exactly once by the
closing `Drop` run. -/
theorem c3_min_length_fast (vl : Layout) (vecs : List (Vec α)) (f : List α → Except ε β)
    (res : RVec β) (lg : Ledger α β) (hne : vecs ≠ [])
    (hcl : check_layout vl vecs = true)
    (h : try_zip_with vl vecs f = some (.ok res, lg)) :
    res.elems.length = remaining_len vecs ∧
    (∀ v, v ∈ vecs → remaining_len vecs ≤ v.elems.length) ∧
    (∃ v, v ∈ vecs ∧ remaining_len vecs = v.elems.length) ∧
    lg.handedToF = vecs.map (fun v => v.elems.take (remaining_len vecs)) ∧
    lg.droppedExtra = vecs.map (fun _ => []) ∧
    lg.droppedRest = vecs.map (fun v => v.elems.drop (remaining_len vecs)) := by
  obtain ⟨i0, vD, res0, lg0, hvD, hfp, hfa, hh, hex, hr, hif, hok, herr, hopt⟩ :=
    fast_run vl vecs f hne
  have htz : try_zip_with vl vecs f = some (res0, lg0) := by
    rw [try_zip_with, if_pos hcl]
    exact hfp
  rw [htz] at h
  have hpair := Option.some.inj h
  have hres : res0 = .ok res := congrArg Prod.fst hpair
  have hlg : lg0 = lg := congrArg Prod.snd hpair
  subst hlg
  cases hcoll : collectResult f (list_items (vecs.map Vec.elems)) with
  | error e =>
    obtain ⟨hr0, _, _⟩ := herr e hcoll
    rw [hres] at hr0
    simp at hr0
  | ok vals =>
    obtain ⟨hr0, _, _⟩ := hok vals hcoll
    rw [hres] at hr0
    injection hr0 with hr0
    obtain ⟨hvlen, _⟩ := ok_values_pointwise vecs f vals hne hcoll
    have hkap : applyCount f (list_items (vecs.map Vec.elems)) = remaining_len vecs := by
      rw [applyCount_of_ok f _ vals hcoll, items_length_eq vecs hne]
    refine ⟨?_, fun v hv => remaining_len_le vecs v hv, remaining_len_mem vecs hne,
      ?_, hex, ?_⟩
    · rw [hr0]
      simpa using hvlen
    · rw [hh, hfa, hkap]
    · rw [hr, hfa, hkap]

/-- C4: for every inputs and transform, the value computed by the slow
path (iterator-based fresh allocation) equals the value computed by
the fast path (donor reuse) on the same inputs and transform — the
externally observable outcome, the error or the list of result
elements, is independent of which path ran. -/
theorem c4_path_equivalence (vl : Layout) (vecs : List (Vec α)) (f : List α → Except ε β)
    (hne : vecs ≠ []) :
    ∃ resF lgF, fast_path vl vecs f = some (resF, lgF) ∧
      Except.map RVec.elems resF = Except.map RVec.elems (slow_path vecs f).1 := by
  obtain ⟨i0, vD, resF, lgF, hvD, hfp, _, _, _, _, _, hokF, herrF, _⟩ :=
    fast_run vl vecs f hne
  obtain ⟨resS, lgS, hsp, _, _, _, herrS, hokS⟩ := slow_run vecs f hne
  refine ⟨resF, lgF, hfp, ?_⟩
  rw [hsp]
  cases hcoll : collectResult f (list_items (vecs.map Vec.elems)) with
  | error e =>
    obtain ⟨hF, _, _⟩ := herrF e hcoll
    obtain ⟨hS, _⟩ := herrS e hcoll
    rw [hF, hS]
  | ok vals =>
    obtain ⟨hF, _, _⟩ := hokF vals hcoll
    obtain ⟨hS, _, _, _⟩ := hokS vals hcoll
    rw [hF, hS]
    rfl

/-- C5: on the fast path the successful result vector is the donor's
buffer reassembled — its backing address is the donor input's original
backing address (no new allocation) and its capacity the donor's
original capacity; in particular the identity map over a single input
whose layout matches returns the same elements reusing the identical
allocation. -/
theorem c5_donor_reuse (vl : Layout) (vecs : List (Vec α)) (f : List α → Except ε β)
    (res : RVec β) (lg : Ledger α β) (hne : vecs ≠ [])
    (hcl : check_layout vl vecs = true)
    (h : try_zip_with vl vecs f = some (.ok res, lg)) :
    (∃ (i : Nat) (vD : Vec α), vecs[i]? = some vD ∧ vD.layout = vl ∧
      res.alloc = .reused vD.addr vD.cap) ∧
    (∀ w : Vec α, w.layout = vl →
      ∃ lgw, try_zip_with vl [w] idTransform =
        some (.ok ⟨.reused w.addr w.cap, w.elems⟩, lgw)) := by
  constructor
  · obtain ⟨i0, vD, res0, lg0, hvD, hfp, _, _, _, _, _, hok, herr, hopt⟩ :=
      fast_run vl vecs f hne
    have htz : try_zip_with vl vecs f = some (res0, lg0) := by
      rw [try_zip_with, if_pos hcl]
      exact hfp
    rw [htz] at h
    have hres : res0 = .ok res := congrArg Prod.fst (Option.some.inj h)
    obtain ⟨hlay, _, _⟩ := hopt ((check_layout_iff vl vecs).mp hcl)
    cases hcoll : collectResult f (list_items (vecs.map Vec.elems)) with
    | error e =>
      obtain ⟨hr0, _, _⟩ := herr e hcoll
      rw [hres] at hr0
      simp at hr0
    | ok vals =>
      obtain ⟨hr0, _, _⟩ := hok vals hcoll
      rw [hres] at hr0
      injection hr0 with hr0
      exact ⟨i0, vD, hvD, hlay, by simp [hr0]⟩
  · intro w hw
    have hclw : check_layout vl [w] = true := by
      simp [check_layout, hw]
    obtain ⟨i0, vD, res0, lg0, hvD, hfp, _, _, _, _, _, hok, herr, hopt⟩ :=
      fast_run vl [w] (idTransform : List α → Except Unit α) (by simp)
    have hi0 : i0 = 0 := by
      have := (List.getElem?_eq_some.mp hvD).1
      simp at this
      omega
    subst hi0
    have hvDw : vD = w := by
      simp only [List.getElem?_cons_zero, Option.some.injEq] at hvD
      exact hvD.symm
    subst hvDw
    have hcoll : collectResult (idTransform : List α → Except Unit α)
        (list_items ([vD].map Vec.elems)) = .ok vD.elems := by
      have hli : list_items ([vD].map Vec.elems) = vD.elems.map (fun x => [x]) := by
        simp [list_items]
      rw [hli]
      exact collectResult_map_single vD.elems
    obtain ⟨hr0, _, _⟩ := hok vD.elems hcoll
    refine ⟨lg0, ?_⟩
    rw [try_zip_with, if_pos hclw, hfp, hr0]

/-- C6: donor selection traverses the input list once and, among
exactly the elements whose layout matches the output type, selects the
one with the largest capacity, with the first seen — the earliest in
call-site order — winning ties; elements with non-matching layout are
never selected; when no element matches, no donor is returned (and the
depth out-parameter is left untouched).  The returned depth routes
`take_output_impl` to exactly the selected element. -/
theorem c6_donor_selection (vl : Layout) (inputs : List (Input α)) (d0 : Nat) :
    ((∀ d, d ∈ inputs → d.layout ≠ vl) → max_cap vl inputs d0 = (none, d0)) ∧
    (∀ dm, dm ∈ inputs → dm.layout = vl →
      ∃ c depth i di, max_cap vl inputs d0 = (some c, depth) ∧
        i + depth + 1 = inputs.length ∧ inputs[i]? = some di ∧ di.layout = vl ∧
        di.cap = c ∧
        (∀ (j : Nat) (dj : Input α), inputs[j]? = some dj → dj.layout = vl →
          dj.cap ≤ c) ∧
        (∀ (j : Nat) (dj : Input α), j < i → inputs[j]? = some dj → dj.layout = vl →
          dj.cap < c) ∧
        (take_output_impl depth inputs : Option (Output β × List (Input α))) =
          some (⟨di.start, 0, di.cap, []⟩,
            inputs.set i { di with drop_alloc := false })) := by
  refine ⟨max_cap_none vl inputs d0, ?_⟩
  intro dm hm hl
  obtain ⟨c, depth, i, di, hmc, hlen, hget, hgl, hgc, hub, hstrict⟩ :=
    max_cap_some vl inputs d0 dm hm hl
  exact ⟨c, depth, i, di, hmc, hlen, hget, hgl, hgc, hub, hstrict,
    take_output_impl_at β inputs depth i di (by omega) hget⟩

/-- C7: `try_zip_with` short-circuits on the first error — the
caller-supplied error value is returned verbatim, the transform is
applied exactly `k` times when the `k`-th application is the first to
fail, no retry occurs, and no partial result is kept (the payload is
the error, not a vector). -/
theorem c7_short_circuit (vl : Layout) (vecs : List (Vec α)) (f : List α → Except ε β)
    (k : Nat) (e : ε) (hne : vecs ≠ []) (hk1 : 1 ≤ k) (hkm : k ≤ remaining_len vecs)
    (hpre : ∀ (j : Nat), j + 1 < k → ∃ item y, itemAt vecs j = some item ∧ f item = .ok y)
    (herr : ∃ item, itemAt vecs (k - 1) = some item ∧ f item = .error e) :
    ∃ lg : Ledger α β, try_zip_with vl vecs f = some (.error e, lg) ∧ lg.fApplied = k := by
  obtain ⟨hcoll, hac⟩ := first_error_items vecs f k e hne hk1 hkm hpre herr
  by_cases hcl : check_layout vl vecs = true
  · obtain ⟨i0, vD, res0, lg0, hvD, hfp, hfa, _, _, _, _, _, herr2, _⟩ :=
      fast_run vl vecs f hne
    obtain ⟨hr0, _, _⟩ := herr2 e hcoll
    subst hr0
    exact ⟨lg0, by rw [try_zip_with, if_pos hcl]; exact hfp, by omega⟩
  · obtain ⟨res0, lg0, hsp, hfa, _, _, herr2, _⟩ := slow_run vecs f hne
    obtain ⟨hr0, _, _, _, _⟩ := herr2 e hcoll
    subst hr0
    exact ⟨lg0, by rw [try_zip_with, if_neg hcl, hsp], by omega⟩

/-- C8: a transform divergence (Rust panic) at the `k`-th application
is modelled as the distinguished `Unwind.diverge` error — unwinding
through `try_into_vec` runs exactly the `Drop` code the `?` early
return runs — and the same drop-count identity as for a
`k`-th-application error holds after the unwind: `k - 1` produced
outputs dropped, every input element at index `≥ k` dropped exactly
once, all input elements accounted for.  Moreover the tail list's
disposal is guaranteed to run even if the head input's disposal itself
diverges (`defer!` in `Tuple::drop_rest`), so a failure to dispose one
input never prevents the release of the others. -/
theorem c8_unwind_teardown (vl : Layout) (vecs : List (Vec α))
    (f : List α → Except (Unwind ε) β) (k : Nat) (hne : vecs ≠ [])
    (hk1 : 1 ≤ k) (hkm : k ≤ remaining_len vecs)
    (hpre : ∀ (j : Nat), j + 1 < k →
      ∃ item y, itemAt vecs j = some item ∧ f item = .ok y)
    (hdiv : ∃ item, itemAt vecs (k - 1) = some item ∧ f item = .error .diverge) :
    (∃ lg : Ledger α β, try_zip_with vl vecs f = some (.error .diverge, lg) ∧
      lg.fApplied = k ∧
      lg.outDropped.length = k - 1 ∧
      lg.handedToF = vecs.map (fun v => v.elems.take k) ∧
      lg.droppedRest = vecs.map (fun v => v.elems.drop k) ∧
      (lg.droppedRest.map List.length).sum + k * vecs.length =
        (vecs.map (fun v => v.elems.length)).sum) ∧
    (∀ (dv : List Bool) (inputs : List (Input α)) (len : Nat),
      (drop_rest_diverge dv inputs len).1 = tuple_drop_rest inputs len) := by
  refine ⟨?_, drop_rest_diverge_complete⟩
  obtain ⟨hcoll, hac⟩ := first_error_items vecs f k Unwind.diverge hne hk1 hkm hpre hdiv
  obtain ⟨hoklen, _⟩ := okVals_of_error f _ Unwind.diverge hcoll
  have hsum : ((vecs.map (fun v => v.elems.drop k)).map List.length).sum + k * vecs.length =
      (vecs.map (fun v => v.elems.length)).sum :=
    sum_drop_lengths k vecs (fun v hv => Nat.le_trans hkm (remaining_len_le vecs v hv))
  by_cases hcl : check_layout vl vecs = true
  · obtain ⟨i0, vD, res0, lg0, hvD, hfp, hfa, hh, hex, hr, hif, hok, herr2, hopt⟩ :=
      fast_run vl vecs f hne
    obtain ⟨hr0, hod, haf⟩ := herr2 Unwind.diverge hcoll
    subst hr0
    refine ⟨lg0, ?_, by omega, ?_, ?_, ?_, ?_⟩
    · rw [try_zip_with, if_pos hcl]
      exact hfp
    · rw [hod, hoklen]
      omega
    · rw [hh, hfa, hac]
    · rw [hr, hfa, hac]
    · rw [hr, hfa, hac]
      exact hsum
  · obtain ⟨res0, lg0, hsp, hfa, hh, hif, herr2, hok⟩ := slow_run vecs f hne
    obtain ⟨hr0, hex, hr, hod, haf⟩ := herr2 Unwind.diverge hcoll
    subst hr0
    refine ⟨lg0, ?_, by omega, ?_, ?_, ?_, ?_⟩
    · rw [try_zip_with, if_neg hcl, hsp]
    · rw [hod, hoklen]
      omega
    · rw [hh, hfa, hac]
    · rw [hr, hfa, hac]
    · rw [hr, hfa, hac]
      exact hsum

/-- C9: a layout mismatch is not an error — when no input's element
layout matches the output type, `try_zip_with` silently takes the
fresh-allocation slow path and completes normally (with a transform
that always succeeds it returns `Ok` of the collected values); and two
layouts match exactly when both the size and the alignment are
equal. -/
theorem c9_layout_mismatch (vl : Layout) (vecs : List (Vec α)) (f : List α → Except ε β)
    (hne : vecs ≠ []) (hmis : ∀ v, v ∈ vecs → v.layout ≠ vl)
    (hok : ∀ (i : Nat) (item : List α), i < remaining_len vecs → itemAt vecs i = some item →
      ∃ y, f item = .ok y) :
    (∃ vals lg, try_zip_with vl vecs f = some (.ok ⟨.fresh, vals⟩, lg)) ∧
    (∀ l1 l2 : Layout, l1 = l2 ↔ (l1.size = l2.size ∧ l1.align = l2.align)) := by
  constructor
  · have hcl : ¬ (check_layout vl vecs = true) := by
      rw [check_layout_iff]
      rintro ⟨v, hv, hvl⟩
      exact hmis v hv hvl
    have hall : ∀ (s : Nat) (item : List α),
        (list_items (vecs.map Vec.elems))[s]? = some item → ∃ y, f item = .ok y := by
      intro s item hs
      have hlen := items_length_eq vecs hne
      have hslt : s < remaining_len vecs := by
        by_contra hc
        rw [List.getElem?_eq_none (by omega)] at hs
        exact Option.noConfusion hs
      rw [list_items_getElem? vecs hne s hslt] at hs
      exact hok s item hslt hs
    obtain ⟨vals, hcoll⟩ := collectResult_ok_of_all f _ hall
    obtain ⟨res0, lg0, hsp, _, _, _, _, hok2⟩ := slow_run vecs f hne
    obtain ⟨hr0, _, _, _⟩ := hok2 vals hcoll
    subst hr0
    exact ⟨vals, lg0, by rw [try_zip_with, if_neg hcl, hsp]⟩
  · intro l1 l2
    constructor
    · rintro rfl
      exact ⟨rfl, rfl⟩
    · rintro ⟨h1, h2⟩
      cases l1
      cases l2
      simp only at h1 h2
      rw [h1, h2]

/-- C10: when the minimum input length is zero (for example some input
is empty), `try_zip_with` returns `Ok` of an empty vector, the
transform is never invoked, every element of every input is still
dropped exactly once, and every allocation except a reused donor is
freed — on the fast path and on the slow path alike. -/
theorem c10_empty_min (vl : Layout) (vecs : List (Vec α)) (f : List α → Except ε β)
    (hne : vecs ≠ []) (h0 : remaining_len vecs = 0) :
    ∃ (res : RVec β) (lg : Ledger α β),
      try_zip_with vl vecs f = some (.ok res, lg) ∧ res.elems = [] ∧
      lg.fApplied = 0 ∧
      (∀ (j : Nat) (vj : Vec α), vecs[j]? = some vj →
        lg.handedToF[j]? = some ([] : List α) ∧
        ∃ ej rj, lg.droppedExtra[j]? = some ej ∧ lg.droppedRest[j]? = some rj ∧
          ej ++ rj = vj.elems) ∧
      (∀ (j : Nat) (vj : Vec α) (b : Bool), vecs[j]? = some vj →
        lg.inFreed[j]? = some b → b = true ∨ res.alloc = .reused vj.addr vj.cap) := by
  have hitems : list_items (vecs.map Vec.elems) = [] := by
    have hl := items_length_eq vecs hne
    rw [h0] at hl
    exact List.length_eq_zero.mp hl
  have hcoll : collectResult f (list_items (vecs.map Vec.elems)) = .ok [] := by
    rw [hitems]
    rfl
  by_cases hcl : check_layout vl vecs = true
  · obtain ⟨i0, vD, res0, lg0, hvD, hfp, hfa, hh, hex, hr, hif, hok, herr, hopt⟩ :=
      fast_run vl vecs f hne
    obtain ⟨hr0, _, _⟩ := hok [] hcoll
    subst hr0
    have hfa0 : lg0.fApplied = 0 := by
      rw [hfa, hitems]
      rfl
    refine ⟨⟨.reused vD.addr vD.cap, []⟩, lg0, ?_, rfl, hfa0, ?_, ?_⟩
    · rw [try_zip_with, if_pos hcl]
      exact hfp
    · intro j vj hvj
      constructor
      · rw [hh, List.getElem?_map, hvj]
        simp [hfa0]
      · refine ⟨[], vj.elems, ?_, ?_, by simp⟩
        · rw [hex, List.getElem?_map, hvj]
          rfl
        · rw [hr, List.getElem?_map, hvj]
          simp [hfa0]
    · intro j vj b hvj hb
      by_cases hji : j = i0
      · subst hji
        right
        have hvv : vj = vD := by
          rw [hvD] at hvj
          exact (Option.some.inj hvj).symm
        subst hvv
        rfl
      · left
        have hjlt : j < vecs.length := (List.getElem?_eq_some.mp hvj).1
        have hifj := hif j hjlt
        rw [hifj] at hb
        have hbv := Option.some.inj hb
        rw [if_neg hji] at hbv
        exact hbv.symm
  · obtain ⟨res0, lg0, hsp, hfa, hh, hif, herr2, hok2⟩ := slow_run vecs f hne
    obtain ⟨hr0, _, _, hcons⟩ := hok2 [] hcoll
    subst hr0
    have hfa0 : lg0.fApplied = 0 := by
      rw [hfa, hitems]
      rfl
    refine ⟨⟨.fresh, []⟩, lg0, ?_, rfl, hfa0, ?_, ?_⟩
    · rw [try_zip_with, if_neg hcl, hsp]
    · intro j vj hvj
      constructor
      · rw [hh, List.getElem?_map, hvj]
        simp [hfa0]
      · obtain ⟨ej, rj, hej, hrj, hc⟩ := hcons j vj hvj
        refine ⟨ej, rj, hej, hrj, ?_⟩
        rw [hc, h0]
        exact List.drop_zero vj.elems
    · intro j vj b hvj hb
      left
      rw [hif, List.getElem?_map, hvj] at hb
      have hbv := Option.some.inj hb
      exact hbv.symm

/-- Witness for C1: the spec's scenario `[1,2,3]` zip `[10,20,30]`
under the sum transform yields `[11,22,33]` with every conclusion of
the lock-step characterisation. -/
theorem c1_witness :
    ([wv1, wv2] : List (Vec Nat)) ≠ [] ∧
    try_zip_with wL4 [wv1, wv2] wsum =
      some (.ok ⟨.reused 200 5, [11, 22, 33]⟩,
        ⟨3, [[1, 2, 3], [10, 20, 30]], [[], []], [[], []], [true, false], [], false⟩) ∧
    ((⟨.reused 200 5, [11, 22, 33]⟩ : RVec Nat).elems.length = remaining_len [wv1, wv2] ∧
      ∀ (i : Nat), i < remaining_len [wv1, wv2] →
        ∃ item y, itemAt [wv1, wv2] i = some item ∧ wsum item = .ok y ∧
          (⟨.reused 200 5, [11, 22, 33]⟩ : RVec Nat).elems[i]? = some y) :=
  ⟨by decide, by decide,
    c1_lockstep_values wL4 [wv1, wv2] wsum ⟨.reused 200 5, [11, 22, 33]⟩
      ⟨3, [[1, 2, 3], [10, 20, 30]], [[], []], [[], []], [true, false], [], false⟩
      (by decide) (by decide)⟩

/-- Witness for C2: the transform error at the second application is
returned with the full disposal accounting. -/
theorem c2_witness :
    ([wv1, wv2] : List (Vec Nat)) ≠ [] ∧
    1 ≤ 2 ∧ 2 ≤ remaining_len [wv1, wv2] ∧
    (∀ (j : Nat), j + 1 < 2 → ∃ item y, itemAt [wv1, wv2] j = some item ∧
      werr item = .ok y) ∧
    (∃ item, itemAt [wv1, wv2] (2 - 1) = some item ∧ werr item = .error 7) ∧
    (∃ lg : Ledger Nat Nat, try_zip_with wL4 [wv1, wv2] werr = some (.error 7, lg) ∧
      lg.fApplied = 2 ∧
      lg.outDropped.length = 2 - 1 ∧
      (∀ (j : Nat), j + 1 < 2 →
        ∃ item y, itemAt [wv1, wv2] j = some item ∧ werr item = .ok y ∧
          lg.outDropped[j]? = some y) ∧
      lg.handedToF = [wv1, wv2].map (fun v => v.elems.take 2) ∧
      lg.droppedExtra = [wv1, wv2].map (fun _ => []) ∧
      lg.droppedRest = [wv1, wv2].map (fun v => v.elems.drop 2) ∧
      (lg.droppedRest.map List.length).sum + 2 * ([wv1, wv2] : List (Vec Nat)).length =
        ([wv1, wv2].map (fun v => v.elems.length)).sum ∧
      lg.outAllocFreed = true) :=
  ⟨by decide, by decide, by decide,
    fun j hj => by
      have hj0 : j = 0 := by omega
      subst hj0
      exact ⟨[1, 10], 11, by decide, by decide⟩,
    ⟨[2, 20], by decide, by decide⟩,
    c2_error_accounting wL4 [wv1, wv2] werr 2 7 (by decide) (by decide) (by decide)
      (fun j hj => by
        have hj0 : j = 0 := by omega
        subst hj0
        exact ⟨[1, 10], 11, by decide, by decide⟩)
      ⟨[2, 20], by decide, by decide⟩⟩

/-- Witness for C3: inputs of lengths 4 and 3 on the fast path yield a
result of length 3 and the beyond-minimum element `4` is dropped
unread. -/
theorem c3_witness :
    ([wv3, wv2] : List (Vec Nat)) ≠ [] ∧
    check_layout wL4 [wv3, wv2] = true ∧
    try_zip_with wL4 [wv3, wv2] wsum =
      some (.ok ⟨.reused 200 5, [11, 22, 33]⟩,
        ⟨3, [[1, 2, 3], [10, 20, 30]], [[], []], [[4], []], [true, false], [], false⟩) ∧
    ((⟨.reused 200 5, [11, 22, 33]⟩ : RVec Nat).elems.length = remaining_len [wv3, wv2] ∧
      (∀ v, v ∈ [wv3, wv2] → remaining_len [wv3, wv2] ≤ v.elems.length) ∧
      (∃ v, v ∈ [wv3, wv2] ∧ remaining_len [wv3, wv2] = v.elems.length) ∧
      (⟨3, [[1, 2, 3], [10, 20, 30]], [[], []], [[4], []], [true, false], [], false⟩ :
          Ledger Nat Nat).handedToF =
        [wv3, wv2].map (fun v => v.elems.take (remaining_len [wv3, wv2])) ∧
      (⟨3, [[1, 2, 3], [10, 20, 30]], [[], []], [[4], []], [true, false], [], false⟩ :
          Ledger Nat Nat).droppedExtra = [wv3, wv2].map (fun _ => []) ∧
      (⟨3, [[1, 2, 3], [10, 20, 30]], [[], []], [[4], []], [true, false], [], false⟩ :
          Ledger Nat Nat).droppedRest =
        [wv3, wv2].map (fun v => v.elems.drop (remaining_len [wv3, wv2]))) :=
  ⟨by decide, by decide, by decide,
    c3_min_length_fast wL4 [wv3, wv2] wsum ⟨.reused 200 5, [11, 22, 33]⟩
      ⟨3, [[1, 2, 3], [10, 20, 30]], [[], []], [[4], []], [true, false], [], false⟩
      (by decide) (by decide) (by decide)⟩

/-- Witness for C4: on `u64`-layout inputs with a `u32` output type the
fast path value coincides with the slow path value. -/
theorem c4_witness :
    ([wv8a, wv8b] : List (Vec Nat)) ≠ [] ∧
    (∃ resF lgF, fast_path wL4 [wv8a, wv8b] wsum = some (resF, lgF) ∧
      Except.map RVec.elems resF = Except.map RVec.elems (slow_path [wv8a, wv8b] wsum).1) :=
  ⟨by decide, c4_path_equivalence wL4 [wv8a, wv8b] wsum (by decide)⟩

/-- Witness for C5: the scenario run reuses the donor's address 200 and
capacity 5, and the identity map over a single matching input reuses
its allocation. -/
theorem c5_witness :
    ([wv1, wv2] : List (Vec Nat)) ≠ [] ∧
    check_layout wL4 [wv1, wv2] = true ∧
    try_zip_with wL4 [wv1, wv2] wsum =
      some (.ok ⟨.reused 200 5, [11, 22, 33]⟩,
        ⟨3, [[1, 2, 3], [10, 20, 30]], [[], []], [[], []], [true, false], [], false⟩) ∧
    ((∃ (i : Nat) (vD : Vec Nat), [wv1, wv2][i]? = some vD ∧ vD.layout = wL4 ∧
        (⟨.reused 200 5, [11, 22, 33]⟩ : RVec Nat).alloc = .reused vD.addr vD.cap) ∧
      (∀ w : Vec Nat, w.layout = wL4 →
        ∃ lgw, try_zip_with wL4 [w] idTransform =
          some (.ok ⟨.reused w.addr w.cap, w.elems⟩, lgw))) :=
  ⟨by decide, by decide, by decide,
    c5_donor_reuse wL4 [wv1, wv2] wsum ⟨.reused 200 5, [11, 22, 33]⟩
      ⟨3, [[1, 2, 3], [10, 20, 30]], [[], []], [[], []], [true, false], [], false⟩
      (by decide) (by decide) (by decide)⟩

/-- Witness for C6: between a non-matching capacity-2 input and a
matching capacity-9 input, donor selection picks the matching one. -/
theorem c6_witness :
    wi2 ∈ [wi1, wi2] ∧ wi2.layout = wL4 ∧
    (∃ c depth i di, max_cap wL4 [wi1, wi2] 0 = (some c, depth) ∧
      i + depth + 1 = ([wi1, wi2] : List (Input Nat)).length ∧
      [wi1, wi2][i]? = some di ∧ di.layout = wL4 ∧ di.cap = c ∧
      (∀ (j : Nat) (dj : Input Nat), [wi1, wi2][j]? = some dj → dj.layout = wL4 →
        dj.cap ≤ c) ∧
      (∀ (j : Nat) (dj : Input Nat), j < i → [wi1, wi2][j]? = some dj →
        dj.layout = wL4 → dj.cap < c) ∧
      (take_output_impl depth [wi1, wi2] : Option (Output Nat × List (Input Nat))) =
        some (⟨di.start, 0, di.cap, []⟩,
          ([wi1, wi2] : List (Input Nat)).set i { di with drop_alloc := false })) :=
  ⟨by decide, by decide,
    (@c6_donor_selection Nat Nat wL4 [wi1, wi2] 0).2 wi2 (by decide) (by decide)⟩

/-- Witness for C7: the error at the second application is returned
after exactly two transform applications. -/
theorem c7_witness :
    ([wv1, wv2] : List (Vec Nat)) ≠ [] ∧
    1 ≤ 2 ∧ 2 ≤ remaining_len [wv1, wv2] ∧
    (∃ lg : Ledger Nat Nat, try_zip_with wL4 [wv1, wv2] werr = some (.error 7, lg) ∧
      lg.fApplied = 2) :=
  ⟨by decide, by decide, by decide,
    c7_short_circuit wL4 [wv1, wv2] werr 2 7 (by decide) (by decide) (by decide)
      (fun j hj => by
        have hj0 : j = 0 := by omega
        subst hj0
        exact ⟨[1, 10], 11, by decide, by decide⟩)
      ⟨[2, 20], by decide, by decide⟩⟩

/-- Witness for C8: a divergence at the second application leaves the
same teardown accounting as the error case, and the instrumented
`drop_rest` disposes of every input whatever diverges. -/
theorem c8_witness :
    ([wv1, wv2] : List (Vec Nat)) ≠ [] ∧
    1 ≤ 2 ∧ 2 ≤ remaining_len [wv1, wv2] ∧
    ((∃ lg : Ledger Nat Nat,
        try_zip_with wL4 [wv1, wv2] wdiv = some (.error .diverge, lg) ∧
        lg.fApplied = 2 ∧
        lg.outDropped.length = 2 - 1 ∧
        lg.handedToF = [wv1, wv2].map (fun v => v.elems.take 2) ∧
        lg.droppedRest = [wv1, wv2].map (fun v => v.elems.drop 2) ∧
        (lg.droppedRest.map List.length).sum + 2 * ([wv1, wv2] : List (Vec Nat)).length =
          ([wv1, wv2].map (fun v => v.elems.length)).sum) ∧
      (∀ (dv : List Bool) (inputs : List (Input Nat)) (len : Nat),
        (drop_rest_diverge dv inputs len).1 = tuple_drop_rest inputs len)) :=
  ⟨by decide, by decide, by decide,
    c8_unwind_teardown wL4 [wv1, wv2] wdiv 2 (by decide) (by decide) (by decide)
      (fun j hj => by
        have hj0 : j = 0 := by omega
        subst hj0
        exact ⟨[1, 10], 11, by decide, by decide⟩)
      ⟨[2, 20], by decide, by decide⟩⟩

/-- Witness for C9: with `u64`-layout inputs and a `u32` output type
the slow path completes normally, and layout matching is componentwise
equality. -/
theorem c9_witness :
    ([wv8a, wv8b] : List (Vec Nat)) ≠ [] ∧
    (∀ v, v ∈ [wv8a, wv8b] → v.layout ≠ wL4) ∧
    ((∃ vals lg, try_zip_with wL4 [wv8a, wv8b] wsum = some (.ok ⟨.fresh, vals⟩, lg)) ∧
      (∀ l1 l2 : Layout, l1 = l2 ↔ (l1.size = l2.size ∧ l1.align = l2.align))) :=
  ⟨by decide, by decide,
    c9_layout_mismatch wL4 [wv8a, wv8b] wsum (by decide) (by decide)
      (fun i item _ _ => ⟨item.foldl (· + ·) 0, rfl⟩)⟩

/-- Witness for C10: one empty input forces an empty `Ok` result with
the transform never invoked and everything disposed of exactly once. -/
theorem c10_witness :
    ([wv3, wve] : List (Vec Nat)) ≠ [] ∧
    remaining_len [wv3, wve] = 0 ∧
    (∃ (res : RVec Nat) (lg : Ledger Nat Nat),
      try_zip_with wL4 [wv3, wve] wsum = some (.ok res, lg) ∧ res.elems = [] ∧
      lg.fApplied = 0 ∧
      (∀ (j : Nat) (vj : Vec Nat), [wv3, wve][j]? = some vj →
        lg.handedToF[j]? = some ([] : List Nat) ∧
        ∃ ej rj, lg.droppedExtra[j]? = some ej ∧ lg.droppedRest[j]? = some rj ∧
          ej ++ rj = vj.elems) ∧
      (∀ (j : Nat) (vj : Vec Nat) (b : Bool), [wv3, wve][j]? = some vj →
        lg.inFreed[j]? = some b → b = true ∨ res.alloc = .reused vj.addr vj.cap)) :=
  ⟨by decide, by decide,
    c10_empty_min wL4 [wv3, wve] wsum (by decide) (by decide)⟩

end VecUtils
